import Mathlib

/-!
Verification of the amethyst LSM key-value store (Go) against its
natural-language specification.

The development shallowly embeds the storage engine:

* byte strings are lists of naturals (each byte a value below 256) compared
  with a translation of Go bytes.Compare;
* the entry codec (internal/common, ReadEntry / WriteEntry) works on byte
  lists, little-endian fixed-width integers written explicitly;
* the memtable (internal/memtable/map.go) is an association list with the
  internal sub-sequence counter of the Go implementation;
* the SSTable writer (internal/sstable/sstable.go WriteSSTable), the index
  binary search (Index.FindBlockOffset), the block binary search
  (internal/block/block.go) and the table read path (sstableImpl.Get) are
  translated structurally, tables being modelled at the level of their
  decoded entry lists (the byte roundtrip of the entry codec is proved
  separately on frames);
* the DB orchestrator (internal/db: Open, Put, Delete, Get, processBatch,
  flushMemtable, writeSSTable) is a state-passing translation, with I/O
  failures injected through an explicit error-injection record;
* the manifest Apply (internal/manifest/manifest.go) is translated over an
  immutable Version value.
-/

namespace Amethyst

/-! ## Byte strings and Go bytes.Compare -/
/-- A byte string: the Go type []byte, each element a byte value. -/
abbrev Bytes := List Nat

/-- Translation of Go bytes.Compare: lexicographic comparison, a strict
prefix ordering before the longer string. -/
def byteCompare : Bytes → Bytes → Ordering
  | [], [] => Ordering.eq
  | [], _ :: _ => Ordering.lt
  | _ :: _, [] => Ordering.gt
  | a :: as, b :: bs =>
    if a < b then Ordering.lt
    else if b < a then Ordering.gt
    else byteCompare as bs

/-- Strict byte-string order: bytes.Compare(a, b) < 0. -/
def byteLt (a b : Bytes) : Prop := byteCompare a b = Ordering.lt

/-- Non-strict byte-string order: bytes.Compare(a, b) <= 0. -/
def byteLe (a b : Bytes) : Prop := byteCompare a b ≠ Ordering.gt

instance : DecidablePred (fun p : Bytes × Bytes => byteLt p.1 p.2) := by
  intro p; unfold byteLt; infer_instance

instance byteLtDec (a b : Bytes) : Decidable (byteLt a b) := by
  unfold byteLt; infer_instance

instance byteLeDec (a b : Bytes) : Decidable (byteLe a b) := by
  unfold byteLe; infer_instance

/-! ## Entry model (internal/common, type Entry) -/
/-- The unit flowing through WAL, memtable and tables.  The Go struct is
{Type EntryType; Seq uint32; Key, Value []byte}; etype holds the raw byte
the Go code casts to EntryType (0 = Put, 1 = Delete). -/
structure Entry where
  etype : Nat
  seq : Nat
  key : Bytes
  value : Bytes
deriving DecidableEq, Repr

/-- EntryTypePut. -/
def typePut : Nat := 0

/-- EntryTypeDelete. -/
def typeDelete : Nat := 1

/-! ## Binary codec (internal/common: WriteUint32, ReadUint32, WriteEntry,
ReadEntry).  Integers are little-endian fixed width; a frame is
u8 type | u32 seq | u32 key_len | u32 value_len | key | value. -/
/-- Little-endian encoding of a natural as 4 bytes (WriteUint32). -/
def u32le (n : Nat) : Bytes :=
  [n % 256, n / 256 % 256, n / 256 ^ 2 % 256, n / 256 ^ 3 % 256]

/-- Little-endian value of a byte list (first byte least significant),
as computed by binary.LittleEndian.Uint32 on a 4-byte buffer. -/
def leNat (l : Bytes) : Nat := l.foldr (fun b acc => b + 256 * acc) 0

/-- WriteEntry: the framed byte string of an entry. -/
def encodeEntry (e : Entry) : Bytes :=
  e.etype % 256 :: (u32le e.seq ++ u32le e.key.length ++ u32le e.value.length
    ++ e.key ++ e.value)

/-- Number of bytes WriteEntry emits for an entry: 1 + 4 + 4 + 4 header
bytes plus key and value. -/
def entrySize (e : Entry) : Nat := 13 + e.key.length + e.value.length

/-- io.ReadFull on a byte stream: exactly n bytes or failure. -/
def takeExact (n : Nat) (bs : Bytes) : Option (Bytes × Bytes) :=
  if n ≤ bs.length then some (bs.take n, bs.drop n) else none

/-- Outcome of ReadEntry: clean end of stream (nil, nil), an incomplete
entry (ErrIncompleteEntry), or a decoded entry with the unread suffix. -/
inductive ReadResult where
  | endOfStream
  | incomplete
  | ok (e : Entry) (rest : Bytes)
deriving DecidableEq, Repr

/-- ReadEntry (internal/common): reads the first byte (EOF there is a clean
end of stream), then seq, key_len, value_len as little-endian u32, then the
key and value bytes; every short read after the first byte is
ErrIncompleteEntry. -/
def readEntry (bs : Bytes) : ReadResult :=
  match bs with
  | [] => ReadResult.endOfStream
  | b :: rest =>
    match takeExact 4 rest with
    | none => ReadResult.incomplete
    | some (seqB, r1) =>
      match takeExact 4 r1 with
      | none => ReadResult.incomplete
      | some (klB, r2) =>
        match takeExact 4 r2 with
        | none => ReadResult.incomplete
        | some (vlB, r3) =>
          match takeExact (leNat klB) r3 with
          | none => ReadResult.incomplete
          | some (key, r4) =>
            match takeExact (leNat vlB) r4 with
            | none => ReadResult.incomplete
            | some (value, r5) =>
              ReadResult.ok ⟨b, leNat seqB, key, value⟩ r5

/-- The key length a frame declares (bytes 5..8, little-endian). -/
def frameKeyLen (bs : Bytes) : Nat := leNat ((bs.drop 5).take 4)

/-- The value length a frame declares (bytes 9..12, little-endian). -/
def frameValLen (bs : Bytes) : Nat := leNat ((bs.drop 9).take 4)

/-- Total size of the frame a stream declares. -/
def frameSize (bs : Bytes) : Nat := 13 + frameKeyLen bs + frameValLen bs

/-! ## Memtable (internal/memtable/map.go, mapMemtableImpl)

The Go map items is modelled as an association list with unique keys; the
Go map assignment is an in-place update.  Put and Delete stamp the stored
entry with the memtable-internal counter m.next, not with the caller
entry's seq (map.go lines 24-41). -/
/-- What the Go map stores per key: the latest entry minus its key
(Put stores Type/Seq/Value, Delete stores Type/Seq with nil value). -/
structure MemVal where
  etype : Nat
  seq : Nat
  value : Bytes
deriving DecidableEq, Repr

/-- mapMemtableImpl: items plus the internal sub-sequence counter. -/
structure Memtable where
  items : List (Bytes × MemVal)
  next : Nat
deriving DecidableEq, Repr

/-- NewMapMemtable. -/
def emptyMemtable : Memtable := ⟨[], 0⟩

/-- The Go map assignment m.items[string(key)] = v. -/
def upsert (k : Bytes) (v : MemVal) : List (Bytes × MemVal) → List (Bytes × MemVal)
  | [] => [(k, v)]
  | (k', v') :: t => if k' = k then (k, v) :: t else (k', v') :: upsert k v t

/-- Go map lookup m.items[string(key)]. -/
def alookup (k : Bytes) : List (Bytes × MemVal) → Option MemVal
  | [] => none
  | (k', v) :: t => if k' = k then some v else alookup k t

/-- Memtable.Put: overwrite with a Put entry stamped with the internal
counter. -/
def memPut (m : Memtable) (key value : Bytes) : Memtable :=
  { items := upsert key ⟨typePut, m.next + 1, value⟩ m.items, next := m.next + 1 }

/-- Memtable.Delete: install a tombstone stamped with the internal
counter. -/
def memDelete (m : Memtable) (key : Bytes) : Memtable :=
  { items := upsert key ⟨typeDelete, m.next + 1, []⟩ m.items, next := m.next + 1 }

/-- Memtable.Get: clone of the stored entry with the key filled in. -/
def memGet (m : Memtable) (key : Bytes) : Option Entry :=
  (alookup key m.items).map (fun v => ⟨v.etype, v.seq, key, v.value⟩)

/-- Memtable.Len: number of distinct keys. -/
def memLen (m : Memtable) : Nat := m.items.length

/-- Insertion into a key-sorted association list. -/
def insertByKey (p : Bytes × MemVal) :
    List (Bytes × MemVal) → List (Bytes × MemVal)
  | [] => [p]
  | q :: t => if byteLt p.1 q.1 then p :: q :: t else q :: insertByKey p t

/-- Sorting by key, modelling sort.Strings over the collected map keys
(on unique keys every comparison sort produces this sequence). -/
def sortByKey : List (Bytes × MemVal) → List (Bytes × MemVal)
  | [] => []
  | p :: t => insertByKey p (sortByKey t)

/-- Memtable.Iterator: the ascending-key snapshot, each entry cloned with
its key (cloneIteratorEntry). -/
def memIterator (m : Memtable) : List Entry :=
  (sortByKey m.items).map (fun p => ⟨p.2.etype, p.2.seq, p.1, p.2.value⟩)

/-- Keys of an association list are pairwise distinct. -/
def KeysNodup (l : List (Bytes × MemVal)) : Prop := (l.map Prod.fst).Nodup

/-- Keys appearing before later keys in the sorted list. -/
def KeySortedLe (l : List (Bytes × MemVal)) : Prop :=
  l.Pairwise (fun p q => byteLe p.1 q.1)

/-! ## SSTable writer (internal/sstable/sstable.go, WriteSSTable)

The writer streams entries through a block accumulator of capacity
BLOCK_SIZE = 64 (internal/block/block_interface.go), recording
(blockStartOffset, firstBlockKey) in the index each time a block closes,
closing the final partial block identically, and emitting a footer whose
filter offset and index offset are both the end of the data region (the
filter is unimplemented and empty). -/
/-- BLOCK_SIZE: maximum number of entries per data block. -/
def BLOCK_SIZE : Nat := 64

/-- IndexEntry (internal/sstable, sstable_impl_index): block offset and
first key of the block. -/
structure IdxEntry where
  blockOffset : Nat
  key : Bytes
deriving DecidableEq, Repr

instance : Inhabited IdxEntry := ⟨⟨0, []⟩⟩

/-- Footer as assembled by WriteSSTable: filter offset, index offset and
total entry count. -/
structure Footer where
  filterOffset : Nat
  indexOffset : Nat
  entryCount : Nat
deriving DecidableEq, Repr

/-- The writer loop state: the local variables of WriteSSTable. -/
structure WriteSt where
  offset : Nat
  indexEntries : List IdxEntry
  blockEntryCount : Nat
  totalEntryCount : Nat
  blockStartOffset : Nat
  firstBlockKey : Bytes
  smallestKey : Option Bytes
  largestKey : Option Bytes
deriving DecidableEq, Repr

/-- Initial writer state (all zero values). -/
def initWriteSt : WriteSt := ⟨0, [], 0, 0, 0, [], none, none⟩

/-- One iteration of the WriteSSTable loop body on one streamed entry. -/
def stepWrite (st : WriteSt) (e : Entry) : WriteSt :=
  let st1 := if st.totalEntryCount = 0 then { st with smallestKey := some e.key } else st
  let st2 := { st1 with largestKey := some e.key }
  let st3 := if st2.blockEntryCount = 0 then
    { st2 with blockStartOffset := st2.offset, firstBlockKey := e.key } else st2
  let st4 := { st3 with
    offset := st3.offset + entrySize e,
    blockEntryCount := st3.blockEntryCount + 1,
    totalEntryCount := st3.totalEntryCount + 1 }
  if BLOCK_SIZE ≤ st4.blockEntryCount then
    { st4 with
      indexEntries := st4.indexEntries ++ [⟨st4.blockStartOffset, st4.firstBlockKey⟩],
      blockEntryCount := 0,
      firstBlockKey := [] }
  else st4

/-- The WriteSSTable streaming loop over the entry list. -/
def writePass (st : WriteSt) : List Entry → WriteSt
  | [] => st
  | e :: rest => writePass (stepWrite st e) rest

/-- Closing of the last partial block after the loop. -/
def finishBlocks (st : WriteSt) : WriteSt :=
  if 0 < st.blockEntryCount then
    { st with indexEntries :=
        st.indexEntries ++ [⟨st.blockStartOffset, st.firstBlockKey⟩] }
  else st

/-- The written SSTable, modelled at the level of its decoded regions: the
data region as the entry list, the index as the parsed index entries, and
the footer fields WriteSSTable emits. -/
structure SSTFile where
  entries : List Entry
  index : List IdxEntry
  footer : Footer
  smallestKey : Option Bytes
  largestKey : Option Bytes
deriving DecidableEq, Repr

/-- WriteSSTable: run the loop, close the partial block, and emit the
filter placeholder (both footer offsets equal the end of the data region)
and the footer. -/
def writeSSTable (es : List Entry) : SSTFile :=
  let st := finishBlocks (writePass initWriteSt es)
  { entries := es,
    index := st.indexEntries,
    footer := ⟨st.offset, st.offset, st.totalEntryCount⟩,
    smallestKey := st.smallestKey,
    largestKey := st.largestKey }

/-- Total encoded size of a run of entries. -/
def sizeSum (c : List Entry) : Nat := (c.map entrySize).sum

/-- The 64-entry chunks of the entry stream: the data blocks. -/
def chunks : List Entry → List (List Entry)
  | [] => []
  | e :: rest => ((e :: rest).take BLOCK_SIZE) :: chunks ((e :: rest).drop BLOCK_SIZE)
termination_by es => es.length
decreasing_by simp [BLOCK_SIZE]; omega

/-- The index the specification prescribes: one entry per data block,
holding the block's start offset and first key. -/
def buildIndex (off : Nat) : List Entry → List IdxEntry
  | [] => []
  | e :: rest =>
    ⟨off, e.key⟩ ::
      buildIndex (off + sizeSum ((e :: rest).take BLOCK_SIZE))
        ((e :: rest).drop BLOCK_SIZE)
termination_by es => es.length
decreasing_by simp [BLOCK_SIZE]; omega

instance : Inhabited Entry := ⟨⟨0, 0, [], []⟩⟩

/-! ## Index binary search (Index.FindBlockOffset) and block binary search
(internal/block/block.go, blockImpl.Get) -/
/-- The binary-search loop of FindBlockOffset: after the loop, left is the
first position whose key is greater than the search key. -/
def findLoop (entries : List IdxEntry) (key : Bytes) (left right : Nat) : Nat :=
  if h : left < right then
    let mid := (left + right) / 2
    if byteLe (entries.getD mid default).key key then
      findLoop entries key (mid + 1) right
    else
      findLoop entries key left mid
  else left
termination_by right - left
decreasing_by
  all_goals omega

/-- Index.FindBlockOffset: none when the index is empty or the key is
before the first block's first key; otherwise the block offset of the
greatest index entry with key at most the search key.  (The Go code
indexes entries[left-1]; under the sortedness invariant left is provably
positive there.) -/
def findBlockOffset (entries : List IdxEntry) (key : Bytes) : Option Nat :=
  if entries = [] then none
  else if byteLt key (entries.headD default).key then none
  else
    some (entries.getD (findLoop entries key 0 entries.length - 1) default).blockOffset

/-- The binary-search loop of blockImpl.Get. -/
def blockLoop (entries : List Entry) (key : Bytes) (left right : Nat) : Option Entry :=
  if h : left < right then
    let mid := (left + right) / 2
    match byteCompare key (entries.getD mid default).key with
    | Ordering.eq => some (entries.getD mid default)
    | Ordering.lt => blockLoop entries key left mid
    | Ordering.gt => blockLoop entries key (mid + 1) right
  else none
termination_by right - left
decreasing_by
  all_goals omega

/-- blockImpl.Get: binary search over the parsed block entries. -/
def blockGet (entries : List Entry) (key : Bytes) : Option Entry :=
  blockLoop entries key 0 entries.length

/-- Index sortedness: entry keys strictly ascending by position. -/
def IdxSorted (entries : List IdxEntry) : Prop :=
  ∀ i j, i < j → j < entries.length →
    byteLt (entries.getD i default).key (entries.getD j default).key

/-- Entry-list sortedness: keys strictly ascending by position. -/
def EsSorted (es : List Entry) : Prop :=
  ∀ i j, i < j → j < es.length →
    byteLt (es.getD i default).key (es.getD j default).key

/-- The per-key lookup a sorted table denotes: the first (and, on sorted
inputs, only) entry whose key equals the search key. -/
def lookupEntry : List Entry → Bytes → Option Entry
  | [], _ => none
  | e :: rest, key => if e.key = key then some e else lookupEntry rest key

/-- Offsets strictly ascending by position. -/
def IdxOffSorted (entries : List IdxEntry) : Prop :=
  ∀ i j, i < j → j < entries.length →
    (entries.getD i default).blockOffset < (entries.getD j default).blockOffset

/-- The linear scan in sstableImpl.Get locating the index position whose
BlockOffset equals the offset FindBlockOffset returned. -/
def findOffsetIdx : List IdxEntry → Nat → Option Nat
  | [], _ => none
  | en :: rest, off =>
    if en.blockOffset = off then some 0
    else (findOffsetIdx rest off).map (fun i => i + 1)

/-- Outcome of sstableImpl.Get: ErrNotFound, a corruption-style error
(io.ErrUnexpectedEOF when the located block offset is absent from the
index), or the found entry. -/
inductive TGet where
  | notFound
  | errCorrupt
  | found (e : Entry)
deriving DecidableEq, Repr

/-- sstableImpl.Get over a table holding the entry stream es: locate the
candidate block through Index.FindBlockOffset on the table's index
(the index WriteSSTable wrote), translate the offset back to a block
position by the linear scan, parse that block (the corresponding 64-entry
chunk of the data region) and binary search it. -/
def tableGet (es : List Entry) (key : Bytes) : TGet :=
  match findBlockOffset (buildIndex 0 es) key with
  | none => TGet.notFound
  | some off =>
    match findOffsetIdx (buildIndex 0 es) off with
    | none => TGet.errCorrupt
    | some bi =>
      match blockGet ((chunks es).getD bi []) key with
      | none => TGet.notFound
      | some e => TGet.found e

/-! ## DB orchestrator (internal/db: db.go and batched_write.go)

State-passing translation of the group-commit write path and the read
path.  I/O failures (CreateWAL, SSTable creation/write, WAL append) are
injected through an explicit record; the WAL file and the SSTable files
are carried in the state at the level of their decoded entry streams. -/
/-- A client write request (the Entry DB.Put / DB.Delete builds, before
sequence assignment); empty keys are rejected before enqueueing. -/
inductive WriteOp where
  | put (key value : Bytes)
  | delete (key : Bytes)
deriving DecidableEq, Repr

/-- The key of a request. -/
def opKey : WriteOp → Bytes
  | WriteOp.put k _ => k
  | WriteOp.delete k => k

/-- A flushed SSTable in a level: file number plus the entry stream of its
data region (the manifest FileMetadata resolved through GetTable). -/
structure Table where
  fileNo : Nat
  entries : List Entry
deriving DecidableEq, Repr

/-- Model errors: the wal-closed error of walImpl.WriteEntry, the
invalid-argument error for empty keys, and injected I/O failures carrying
a tag so distinct injections stay distinguishable. -/
inductive DbErr where
  | walClosed
  | invalidArg
  | injected (tag : Nat)
deriving DecidableEq, Repr

/-- Injected I/O failures for one batch: CreateWAL during flush, SSTable
creation/write during flush, WAL append. -/
structure ErrInj where
  newWalErr : Option DbErr
  sstErr : Option DbErr
  walWriteErr : Option DbErr
deriving DecidableEq, Repr

/-- No injected failures. -/
def noInj : ErrInj := ⟨none, none, none⟩

/-- The DB with its manifest Version: sequence counter, memtable, current
WAL file content and handle state, rotated WAL files still on disk,
per-level tables in insertion order, and the next file numbers. -/
structure DBState where
  nextSeq : Nat
  memtable : Memtable
  walEntries : List Entry
  walClosed : Bool
  walFiles : List (List Entry)
  levels : List (List Table)
  currentWAL : Nat
  nextWALNumber : Nat
  nextSSTNumber : Nat
deriving DecidableEq, Repr

/-- Open on a fresh directory (db.go Open, fresh path): zero Version,
initial WAL 0 created, SetWAL(0). -/
def freshDB (numLevels : Nat) : DBState :=
  { nextSeq := 0, memtable := emptyMemtable, walEntries := [],
    walClosed := false, walFiles := [], levels := List.replicate numLevels [],
    currentWAL := 0, nextWALNumber := 1, nextSSTNumber := 0 }

/-- walImpl.WriteEntry: empty batches succeed; a closed handle fails; an
injected I/O failure fails; otherwise the framed batch is appended and
synced. -/
def walWriteEntry (st : DBState) (entries : List Entry) (inj : ErrInj) :
    Except DbErr DBState :=
  if entries = [] then Except.ok st
  else if st.walClosed then Except.error DbErr.walClosed
  else match inj.walWriteErr with
    | some e => Except.error e
    | none => Except.ok { st with walEntries := st.walEntries ++ entries }

/-- flushMemtable (db.go): close the old WAL, create the new WAL file,
stream the memtable iterator through WriteSSTable into a new L0 file,
apply the manifest edit (append to level 0 and bump NextSSTableNumber by
the Apply max rule), SetWAL, persist the manifest, then swap in the new
WAL handle and an empty memtable.  On error the state mutated so far is
kept (in particular the old WAL handle stays closed). -/
def flushMemtable (st : DBState) (inj : ErrInj) :
    Except (DBState × DbErr) DBState :=
  let newWALNum := st.nextWALNumber
  let st1 := { st with walClosed := true }
  match inj.newWalErr with
  | some e => Except.error (st1, e)
  | none =>
    match inj.sstErr with
    | some e => Except.error (st1, e)
    | none =>
      let file := writeSSTable (memIterator st1.memtable)
      let fileNo := st1.nextSSTNumber
      let st2 := { st1 with
        levels := st1.levels.set 0
          ((st1.levels.getD 0 []) ++ [Table.mk fileNo file.entries]),
        nextSSTNumber :=
          if st1.nextSSTNumber ≤ fileNo then fileNo + 1 else st1.nextSSTNumber }
      let st3 := { st2 with
        currentWAL := newWALNum, nextWALNumber := newWALNum + 1 }
      Except.ok { st3 with
        walFiles := st3.walFiles ++ [st3.walEntries],
        walEntries := [],
        walClosed := false,
        memtable := emptyMemtable }

/-- 2^32: DB.nextSeq and Entry.Seq are uint32, so d.nextSeq++ wraps
here. -/
def U32 : Nat := 4294967296

/-- The entry a request becomes once the group-commit loop stamps it. -/
def opEntry (seq : Nat) : WriteOp → Entry
  | WriteOp.put k v => ⟨typePut, seq, k, v⟩
  | WriteOp.delete k => ⟨typeDelete, seq, k, []⟩

/-- Sequence assignment: request i of the batch gets the uint32 value
base + i + 1 mod 2^32 (d.nextSeq++ then Seq = d.nextSeq, per entry). -/
def assignSeqs (base : Nat) (batch : List WriteOp) : List Entry :=
  batch.mapIdx (fun i op => opEntry ((base + i + 1) % U32) op)

/-- The memtable updates of processBatch: Put or Delete per entry type. -/
def applyBatchToMemtable (m : Memtable) (batch : List WriteOp) : Memtable :=
  batch.foldl (fun m op => match op with
    | WriteOp.put k v => memPut m k v
    | WriteOp.delete k => memDelete m k) m

/-- processBatch (batched_write.go): flush when the memtable has reached
the threshold (a flush failure fails the batch), assign sequence numbers,
append the whole batch to the WAL with one sync (a failure fails the
batch before any memtable update), then apply every entry to the
memtable. -/
def processBatch (st : DBState) (batch : List WriteOp) (threshold : Nat)
    (inj : ErrInj) : DBState × Option DbErr :=
  match (if threshold ≤ memLen st.memtable
         then flushMemtable st inj else Except.ok st) with
  | Except.error (st', e) => (st', some e)
  | Except.ok st1 =>
    let entries := assignSeqs st1.nextSeq batch
    let st2 := { st1 with nextSeq := (st1.nextSeq + batch.length) % U32 }
    match walWriteEntry st2 entries inj with
    | Except.error e => (st2, some e)
    | Except.ok st3 => ({ st3 with memtable := applyBatchToMemtable st3.memtable batch }, none)

/-- DB.Put / DB.Delete: reject empty keys with an invalid-argument error
before enqueueing; otherwise the request goes through a group-commit
batch. -/
def applyOp (st : DBState) (op : WriteOp) (threshold : Nat) (inj : ErrInj) :
    DBState × Option DbErr :=
  if opKey op = [] then (st, some DbErr.invalidArg)
  else processBatch st [op] threshold inj

/-- A sequence of client writes applied one batch each, no injected
failures. -/
def applyOps (st : DBState) (W : List WriteOp) (threshold : Nat) : DBState :=
  W.foldl (fun s op => (applyOp s op threshold noInj).1) st

/-- Outcome of DB.Get. -/
inductive GetRes where
  | found (v : Bytes)
  | notFound
  | ioError
deriving DecidableEq, Repr

/-- The per-level table scan of DB.Get: first hit wins; a Put hit returns
the value, a tombstone returns NotFound, a table error aborts the read. -/
def scanTables (key : Bytes) : List Table → Option GetRes
  | [] => none
  | t :: rest =>
    match tableGet t.entries key with
    | TGet.notFound => scanTables key rest
    | TGet.errCorrupt => some GetRes.ioError
    | TGet.found e =>
      some (if e.etype = typeDelete then GetRes.notFound else GetRes.found e.value)

/-- The level loop of DB.Get: levels in order; level 0 is scanned in
reverse insertion order (newest first), higher levels in order. -/
def scanLevels (key : Bytes) : List (List Table) → Nat → GetRes
  | [], _ => GetRes.notFound
  | tables :: restLevels, lvl =>
    match scanTables key (if lvl = 0 then tables.reverse else tables) with
    | some res => res
    | none => scanLevels key restLevels (lvl + 1)

/-- DB.Get: memtable first (a tombstone is NotFound), then the levels of
the current Version. -/
def dbGet (st : DBState) (key : Bytes) : GetRes :=
  match memGet st.memtable key with
  | some e => if e.etype = typeDelete then GetRes.notFound else GetRes.found e.value
  | none => scanLevels key st.levels 0

/-- One write folded into the latest-write view of a key. -/
def specFoldK (k : Bytes) (acc : Option (Option Bytes)) : WriteOp → Option (Option Bytes)
  | WriteOp.put k2 v => if k2 = k then some (some v) else acc
  | WriteOp.delete k2 => if k2 = k then some none else acc

/-- The last write recorded for a key by a request sequence: none when the
key never appears, some none when the latest request is a Delete,
some (some v) when it is Put v. -/
def specOf (W : List WriteOp) (k : Bytes) : Option (Option Bytes) :=
  W.foldl (specFoldK k) none

/-- What DB.Get must answer given the latest write for the key. -/
def specGet (s : Option (Option Bytes)) : GetRes :=
  match s with
  | some (some v) => GetRes.found v
  | some none => GetRes.notFound
  | none => GetRes.notFound

/-! ## DB invariants and the write-path induction -/
/-- Reachable-state invariant: memtable keys unique, every resident table
strictly sorted, the WAL handle open, at least one level. -/
def WF (st : DBState) : Prop :=
  KeysNodup st.memtable.items ∧
  (∀ tables ∈ st.levels, ∀ t ∈ tables, EsSorted t.entries) ∧
  st.walClosed = false ∧
  0 < st.levels.length

/-- The post-state of a successful flush. -/
def flushedState (st : DBState) : DBState :=
  { nextSeq := st.nextSeq,
    memtable := emptyMemtable,
    walEntries := [],
    walClosed := false,
    walFiles := st.walFiles ++ [st.walEntries],
    levels := st.levels.set 0
      (st.levels.getD 0 [] ++ [Table.mk st.nextSSTNumber (memIterator st.memtable)]),
    currentWAL := st.nextWALNumber,
    nextWALNumber := st.nextWALNumber + 1,
    nextSSTNumber := st.nextSSTNumber + 1 }

/-- The read result a single accepted write dictates for its own key. -/
def opWriteRes : WriteOp → GetRes
  | WriteOp.put _ v => GetRes.found v
  | WriteOp.delete _ => GetRes.notFound

/-- Concrete write sequence for the C1 witness: it spans a flush at
threshold 1. -/
def c1W : List WriteOp :=
  [WriteOp.put [1] [5], WriteOp.delete [1], WriteOp.put [2] [7]]

/-- Concrete older L0 table for the C4 witness. -/
def c4A : Table := ⟨0, [⟨typePut, 1, [1], [9]⟩]⟩

/-- Concrete newer L0 table for the C4 witness. -/
def c4B : Table := ⟨1, [⟨typePut, 1, [1], [7]⟩]⟩

/-- Concrete DB state for the C4 witness: both L0 tables contain key 1. -/
def c4st : DBState :=
  { nextSeq := 2, memtable := emptyMemtable, walEntries := [], walClosed := false,
    walFiles := [], levels := [[c4A, c4B]], currentWAL := 2, nextWALNumber := 3,
    nextSSTNumber := 2 }

/-! ## Empty keys never reach any store (C10) -/
/-- Every key stored anywhere in the DB is nonempty. -/
def NoEmptyKeys (st : DBState) : Prop :=
  (∀ p ∈ st.memtable.items, p.1 ≠ ([] : Bytes)) ∧
  (∀ tables ∈ st.levels, ∀ t ∈ tables, ∀ e ∈ t.entries, e.key ≠ ([] : Bytes))

/-! ## Sequence numbers in persisted files (C2) -/
/-- The seq values of all WAL-persisted entries in commit order: rotated
WAL files in rotation order, then the current WAL file. -/
def allWalSeqs (st : DBState) : List Nat :=
  (st.walFiles.join ++ st.walEntries).map Entry.seq

/-- Strictly increasing list of naturals. -/
def StrictIncr (l : List Nat) : Prop := l.Pairwise (fun a b => a < b)

/-- The WAL sequence invariant carried through the write path. -/
def WalInv (st : DBState) : Prop :=
  StrictIncr (allWalSeqs st) ∧ ∀ s ∈ allWalSeqs st, s ≤ st.nextSeq

/-- The DB state after one accepted put of key 1 at flush threshold 1:
its memtable holds one entry, so the next batch triggers a flush. -/
def stp1 : DBState := (applyOp (freshDB 1) (WriteOp.put [1] [5]) 1 noInj).1

instance : DecidableEq (Except DbErr DBState) := fun a b =>
  match a, b with
  | Except.error e1, Except.error e2 =>
    if h : e1 = e2 then Decidable.isTrue (by rw [h])
    else Decidable.isFalse (by intro hc; cases hc; exact h rfl)
  | Except.error _, Except.ok _ => Decidable.isFalse (by intro hc; cases hc)
  | Except.ok _, Except.error _ => Decidable.isFalse (by intro hc; cases hc)
  | Except.ok s1, Except.ok s2 =>
    if h : s1 = s2 then Decidable.isTrue (by rw [h])
    else Decidable.isFalse (by intro hc; cases hc; exact h rfl)

/-- Sorted two-entry stream for the C7 witness: it spans two blocks only
when longer than 64, so here it is a single partial block. -/
def c7es : List Entry := [⟨typePut, 1, [1], [5]⟩, ⟨typePut, 2, [2], [6]⟩]

/-- Sorted index for the C8 witness. -/
def c8idx : List IdxEntry := [⟨0, [1]⟩, ⟨20, [3]⟩]

/-! ## Manifest and Version (internal/manifest/manifest.go, Apply) -/
/-- FileMetadata: per-SSTable metadata tracked by the manifest. -/
structure FileMeta where
  fileNo : Nat
  smallestKey : Bytes
  largestKey : Bytes
deriving DecidableEq, Repr

/-- Version: an immutable snapshot of the LSM structure. -/
structure Version where
  currentWAL : Nat
  levels : List (List FileMeta)
  nextWALNumber : Nat
  nextSSTableNumber : Nat
deriving DecidableEq, Repr

/-- CompactionEdit: per-level additions and deletions.  The Go fields are
maps keyed by level; they are modelled as association lists whose level
keys are distinct (map iteration order is immaterial because distinct
levels are independent and the max of added file numbers is
order-independent). -/
structure CompactionEdit where
  addSSTables : List (Nat × List FileMeta)
  deleteSSTables : List (Nat × List Nat)
deriving DecidableEq, Repr

/-- The deletion loop of Apply: per edited level, keep exactly the
metadata whose file number is not in the level's delete set. -/
def applyDeletes (levels : List (List FileMeta))
    (dels : List (Nat × List Nat)) : List (List FileMeta) :=
  dels.foldl (fun lvls d =>
    lvls.set d.1 ((lvls.getD d.1 []).filter
      (fun fm => decide (fm.fileNo ∉ d.2)))) levels

/-- The addition loop of Apply: per edited level, append the added
metadata. -/
def applyAdds (levels : List (List FileMeta))
    (adds : List (Nat × List FileMeta)) : List (List FileMeta) :=
  adds.foldl (fun lvls a => lvls.set a.1 ((lvls.getD a.1 []) ++ a.2)) levels

/-- The running maximum of added file numbers, starting from the zero
value of the Go local maxSSTable. -/
def maxAddedFileNo (adds : List (Nat × List FileMeta)) : Nat :=
  adds.foldl (fun m a => a.2.foldl (fun m2 fm => max m2 fm.fileNo) m) 0

/-- Manifest.Apply: deep-copy the current version, apply deletions, apply
additions, and bump NextSSTableNumber to maxAdded + 1 whenever
maxAdded >= NextSSTableNumber; all other fields are copied unchanged. -/
def manifestApply (v : Version) (edit : CompactionEdit) : Version :=
  { currentWAL := v.currentWAL
    levels := applyAdds (applyDeletes v.levels edit.deleteSSTables) edit.addSSTables
    nextWALNumber := v.nextWALNumber
    nextSSTableNumber :=
      if v.nextSSTableNumber ≤ maxAddedFileNo edit.addSSTables
      then maxAddedFileNo edit.addSSTables + 1
      else v.nextSSTableNumber }

/-- The delete set the edit names for a level. -/
def delsFor (dels : List (Nat × List Nat)) (lvl : Nat) : List Nat :=
  ((dels.find? (fun d => decide (d.1 = lvl))).map Prod.snd).getD []

/-- The additions the edit names for a level. -/
def addsFor (adds : List (Nat × List FileMeta)) (lvl : Nat) : List FileMeta :=
  ((adds.find? (fun a => decide (a.1 = lvl))).map Prod.snd).getD []

/-- All added file numbers, flattened. -/
def flatAdded (adds : List (Nat × List FileMeta)) : List Nat :=
  (adds.map (fun a => a.2.map (fun fm => fm.fileNo))).flatten

/-- The specification's fold for the next SSTable number: for each added
file, next := max(next, file_no + 1). -/
def claimNextSST (next : Nat) (adds : List (Nat × List FileMeta)) : Nat :=
  adds.foldl (fun n a => a.2.foldl (fun n2 fm => max n2 (fm.fileNo + 1)) n) next

/-- A version with one L0 file and NextSSTableNumber 3, used to exercise
Apply with a delete and an add. -/
def c9v : Version :=
  ⟨5, [[⟨0, [1], [2]⟩], [], [], []], 7, 3⟩

/-- An edit that deletes file 0 from level 0 and adds file 9 there. -/
def c9e : CompactionEdit :=
  ⟨[(0, [⟨9, [4], [5]⟩])], [(0, [0])]⟩

/-! ## Theorems -/

theorem byteCompare_refl (a : Bytes) : byteCompare a a = Ordering.eq := by
  induction a with
  | nil => rfl
  | cons x xs ih => simp [byteCompare, ih]

theorem byteCompare_eq_iff {a b : Bytes} : byteCompare a b = Ordering.eq ↔ a = b := by
  constructor
  · intro h
    induction a generalizing b with
    | nil => cases b with
      | nil => rfl
      | cons y ys => simp [byteCompare] at h
    | cons x xs ih =>
      cases b with
      | nil => simp [byteCompare] at h
      | cons y ys =>
        simp only [byteCompare] at h
        by_cases hxy : x < y
        · simp [hxy] at h
        · by_cases hyx : y < x
          · simp [hxy, hyx] at h
          · have hx : x = y := Nat.le_antisymm (Nat.le_of_not_lt hyx) (Nat.le_of_not_lt hxy)
            simp only [hxy, if_false, hyx] at h
            rw [ih h, hx]
  · intro h; subst h; exact byteCompare_refl a

theorem byteCompare_swap (a b : Bytes) :
    byteCompare b a = (byteCompare a b).swap := by
  induction a generalizing b with
  | nil => cases b <;> rfl
  | cons x xs ih =>
    cases b with
    | nil => rfl
    | cons y ys =>
      simp only [byteCompare]
      by_cases hxy : x < y
      · have hyx : ¬ y < x := Nat.lt_asymm hxy
        simp [hxy, hyx, Ordering.swap]
      · by_cases hyx : y < x
        · simp [hxy, hyx, Ordering.swap]
        · simp [hxy, hyx, ih ys]

theorem byteLt_trans {a b c : Bytes} (h1 : byteLt a b) (h2 : byteLt b c) :
    byteLt a c := by
  unfold byteLt at *
  induction a generalizing b c with
  | nil =>
    cases c with
    | nil =>
      cases b with
      | nil => exact h2
      | cons y ys => simp [byteCompare] at h2
    | cons z zs => rfl
  | cons x xs ih =>
    cases b with
    | nil => simp [byteCompare] at h1
    | cons y ys =>
      cases c with
      | nil => simp [byteCompare] at h2
      | cons z zs =>
        simp only [byteCompare] at h1 h2 ⊢
        by_cases hxy : x < y
        · by_cases hyz : y < z
          · have hxz : x < z := Nat.lt_trans hxy hyz
            simp [hxz]
          · by_cases hzy : z < y
            · simp [hyz, hzy] at h2
            · have hyz' : y = z := Nat.le_antisymm (Nat.le_of_not_lt hzy) (Nat.le_of_not_lt hyz)
              subst hyz'
              simp [hxy]
        · by_cases hyx : y < x
          · simp [hxy, hyx] at h1
          · have hxy' : x = y := Nat.le_antisymm (Nat.le_of_not_lt hyx) (Nat.le_of_not_lt hxy)
            subst hxy'
            by_cases hyz : x < z
            · simp [hyz]
            · by_cases hzy : z < x
              · simp [hyz, hzy] at h2
              · simp only [hxy, if_false] at h1
                simp only [hyz, if_false, hzy] at h2 ⊢
                exact ih h1 h2

theorem byteLt_irrefl (a : Bytes) : ¬ byteLt a a := by
  unfold byteLt
  rw [byteCompare_refl]
  intro h; cases h

theorem byteLt_asymm {a b : Bytes} (h : byteLt a b) : ¬ byteLt b a := by
  intro h2
  exact byteLt_irrefl a (byteLt_trans h h2)

theorem byteCompare_cases (a b : Bytes) :
    byteCompare a b = Ordering.lt ∨ byteCompare a b = Ordering.eq ∨
      byteCompare a b = Ordering.gt := by
  cases h : byteCompare a b
  · exact Or.inl rfl
  · exact Or.inr (Or.inl rfl)
  · exact Or.inr (Or.inr rfl)

theorem byteLt_of_not_le {a b : Bytes} (h : ¬ byteLe a b) : byteLt b a := by
  unfold byteLe at h
  unfold byteLt
  rw [byteCompare_swap]
  rcases byteCompare_cases a b with hc | hc | hc
  · exact absurd (by rw [hc]; intro hx; cases hx) h
  · exact absurd (by rw [hc]; intro hx; cases hx) h
  · rw [hc]; rfl

theorem byteLe_of_not_lt {a b : Bytes} (h : ¬ byteLt b a) : byteLe a b := by
  unfold byteLt at h
  unfold byteLe
  rw [byteCompare_swap] at h
  intro hgt
  rw [hgt] at h
  exact h rfl

theorem byteLe_iff_lt_or_eq {a b : Bytes} : byteLe a b ↔ byteLt a b ∨ a = b := by
  unfold byteLe byteLt
  constructor
  · intro h
    rcases byteCompare_cases a b with hc | hc | hc
    · exact Or.inl hc
    · exact Or.inr (byteCompare_eq_iff.mp hc)
    · exact absurd hc h
  · intro h
    rcases h with h | h
    · rw [h]; intro hx; cases hx
    · subst h; rw [byteCompare_refl]; intro hx; cases hx

theorem byteLt_of_le_of_lt {a b c : Bytes} (h1 : byteLe a b) (h2 : byteLt b c) :
    byteLt a c := by
  rcases byteLe_iff_lt_or_eq.mp h1 with h | h
  · exact byteLt_trans h h2
  · subst h; exact h2

theorem byteLt_of_lt_of_le {a b c : Bytes} (h1 : byteLt a b) (h2 : byteLe b c) :
    byteLt a c := by
  rcases byteLe_iff_lt_or_eq.mp h2 with h | h
  · exact byteLt_trans h1 h
  · subst h; exact h1

theorem byteLe_trans {a b c : Bytes} (h1 : byteLe a b) (h2 : byteLe b c) :
    byteLe a c := by
  rcases byteLe_iff_lt_or_eq.mp h1 with h | h
  · exact byteLe_iff_lt_or_eq.mpr (Or.inl (byteLt_of_lt_of_le h h2))
  · subst h; exact h2

theorem byteLe_refl (a : Bytes) : byteLe a a := byteLe_iff_lt_or_eq.mpr (Or.inr rfl)

theorem byteLe_of_lt {a b : Bytes} (h : byteLt a b) : byteLe a b :=
  byteLe_iff_lt_or_eq.mpr (Or.inl h)

theorem byteLe_total (a b : Bytes) : byteLe a b ∨ byteLe b a := by
  by_cases h : byteLe a b
  · exact Or.inl h
  · exact Or.inr (byteLe_of_lt (byteLt_of_not_le h))

theorem byteLt_nil_cons (b : Nat) (bs : Bytes) : byteLt [] (b :: bs) := rfl

theorem encodeEntry_length (e : Entry) : (encodeEntry e).length = entrySize e := by
  simp [encodeEntry, u32le, entrySize]
  omega

theorem takeExact_none {n : Nat} {bs : Bytes} (h : bs.length < n) :
    takeExact n bs = none := by
  simp [takeExact]; omega

theorem takeExact_some {n : Nat} {bs : Bytes} (h : n ≤ bs.length) :
    takeExact n bs = some (bs.take n, bs.drop n) := by
  simp [takeExact, h]

theorem frameSize_ge (bs : Bytes) : 13 ≤ frameSize bs := by
  unfold frameSize; omega

/-- C5.  ReadEntry has exactly three outcomes on every byte stream: a clean
end of stream exactly on the empty stream; ErrIncompleteEntry exactly when
the stream is nonempty but shorter than the frame it declares (short
header, short key, or short value); otherwise a decoded entry whose type,
seq, key and value are precisely the framed fields, leaving the suffix
after the frame unread. -/
theorem claim_C5 (bs : Bytes) :
    (bs = [] ∧ readEntry bs = ReadResult.endOfStream)
    ∨ (bs ≠ [] ∧ bs.length < frameSize bs ∧ readEntry bs = ReadResult.incomplete)
    ∨ (frameSize bs ≤ bs.length ∧
       readEntry bs = ReadResult.ok
         ⟨bs.headD 0, leNat ((bs.drop 1).take 4),
          (bs.drop 13).take (frameKeyLen bs),
          (bs.drop (13 + frameKeyLen bs)).take (frameValLen bs)⟩
         (bs.drop (frameSize bs))) := by
  match bs with
  | [] => exact Or.inl ⟨rfl, rfl⟩
  | b :: rest =>
    refine Or.inr ?_
    by_cases h4 : 4 ≤ rest.length
    case neg =>
      refine Or.inl ⟨by simp, ?_, ?_⟩
      · have := frameSize_ge (b :: rest)
        simp only [List.length_cons]; omega
      · simp [readEntry, takeExact_none (by omega : rest.length < 4)]
    case pos =>
    have e1 : takeExact 4 rest = some (rest.take 4, rest.drop 4) := takeExact_some h4
    by_cases h8 : 8 ≤ rest.length
    case neg =>
      refine Or.inl ⟨by simp, ?_, ?_⟩
      · have := frameSize_ge (b :: rest)
        simp only [List.length_cons]; omega
      · have e2 : takeExact 4 (rest.drop 4) = none := by
          apply takeExact_none; simp; omega
        simp [readEntry, e1, e2]
    case pos =>
    have e2 : takeExact 4 (rest.drop 4) =
        some ((rest.drop 4).take 4, rest.drop 8) := by
      rw [takeExact_some (by simp; omega)]
      simp [List.drop_drop]
    by_cases h12 : 12 ≤ rest.length
    case neg =>
      refine Or.inl ⟨by simp, ?_, ?_⟩
      · have := frameSize_ge (b :: rest)
        simp only [List.length_cons]; omega
      · have e3 : takeExact 4 (rest.drop 8) = none := by
          apply takeExact_none; simp; omega
        simp [readEntry, e1, e2, e3]
    case pos =>
    have e3 : takeExact 4 (rest.drop 8) =
        some ((rest.drop 8).take 4, rest.drop 12) := by
      rw [takeExact_some (by simp; omega)]
      simp [List.drop_drop]
    have hkl : frameKeyLen (b :: rest) = leNat ((rest.drop 4).take 4) := rfl
    have hvl : frameValLen (b :: rest) = leNat ((rest.drop 8).take 4) := rfl
    set kl := leNat ((rest.drop 4).take 4) with hklv
    set vl := leNat ((rest.drop 8).take 4) with hvlv
    by_cases hK : kl ≤ (rest.drop 12).length
    case neg =>
      refine Or.inl ⟨by simp, ?_, ?_⟩
      · simp only [List.length_cons, frameSize, hkl, hvl]
        simp at hK
        omega
      · have e4 : takeExact kl (rest.drop 12) = none := by
          apply takeExact_none; omega
        simp [readEntry, e1, e2, e3, e4]
    case pos =>
    have e4 : takeExact kl (rest.drop 12) =
        some ((rest.drop 12).take kl, rest.drop (12 + kl)) := by
      rw [takeExact_some hK]
      simp [List.drop_drop, Nat.add_comm]
    by_cases hV : vl ≤ (rest.drop (12 + kl)).length
    case neg =>
      refine Or.inl ⟨by simp, ?_, ?_⟩
      · simp only [List.length_cons, frameSize, hkl, hvl]
        simp at hV hK
        omega
      · have e5 : takeExact vl (rest.drop (12 + kl)) = none := by
          apply takeExact_none; omega
        simp [readEntry, e1, e2, e3, e4, e5]
    case pos =>
    refine Or.inr ⟨?_, ?_⟩
    · simp only [List.length_cons, frameSize, hkl, hvl]
      simp at hV hK
      omega
    · have e5 : takeExact vl (rest.drop (12 + kl)) =
          some ((rest.drop (12 + kl)).take vl, rest.drop (12 + kl + vl)) := by
        rw [takeExact_some hV]
        simp [List.drop_drop, Nat.add_comm, Nat.add_assoc, Nat.add_left_comm]
      simp only [readEntry, e1, e2, e3, e4, e5]
      have hd13 : (b :: rest).drop 13 = rest.drop 12 := rfl
      have hdk : (b :: rest).drop (13 + frameKeyLen (b :: rest)) =
          rest.drop (12 + kl) := by
        rw [hkl, show 13 + kl = (12 + kl) + 1 by omega]
        rfl
      have hfs : (b :: rest).drop (frameSize (b :: rest)) =
          rest.drop (12 + kl + vl) := by
        simp only [frameSize, hkl, hvl]
        rw [show 13 + kl + vl = (12 + kl + vl) + 1 by omega]
        rfl
      rw [hd13, hdk, hfs, hkl, hvl]
      rfl

/-- Roundtrip of the codec on a frame: decoding the encoding of an
in-range entry, with any suffix, yields the entry and the suffix. -/
theorem readEntry_encodeEntry (e : Entry) (rest : Bytes)
    (ht : e.etype < 256) (hs : e.seq < 2 ^ 32)
    (hk : e.key.length < 2 ^ 32) (hv : e.value.length < 2 ^ 32) :
    readEntry (encodeEntry e ++ rest) = ReadResult.ok e rest := by
  have hle : ∀ n : Nat, n < 2 ^ 32 → leNat (u32le n) = n := by
    intro n hn
    simp only [leNat, u32le, List.foldr]
    omega
  have hlen4 : ∀ n : Nat, (u32le n).length = 4 := by intro n; rfl
  have hta : ∀ (l1 l2 : Bytes), takeExact l1.length (l1 ++ l2) = some (l1, l2) := by
    intro l1 l2
    rw [takeExact_some (by simp)]
    simp
  simp only [encodeEntry, List.cons_append, readEntry, List.append_assoc]
  have e1 := hta (u32le e.seq)
    (u32le e.key.length ++ (u32le e.value.length ++ (e.key ++ (e.value ++ rest))))
  rw [hlen4] at e1
  have e2 := hta (u32le e.key.length)
    (u32le e.value.length ++ (e.key ++ (e.value ++ rest)))
  rw [hlen4] at e2
  have e3 := hta (u32le e.value.length) (e.key ++ (e.value ++ rest))
  rw [hlen4] at e3
  have e4 := hta e.key (e.value ++ rest)
  have e5 := hta e.value rest
  simp only [e1, e2, e3, hle _ hk, hle _ hv, hle _ hs, e4, e5,
    Nat.mod_eq_of_lt ht]

theorem mem_keys_upsert {j k : Bytes} {v : MemVal} {l : List (Bytes × MemVal)}
    (hj : j ∈ (upsert k v l).map Prod.fst) : j = k ∨ j ∈ l.map Prod.fst := by
  induction l with
  | nil =>
    simp [upsert] at hj
    exact Or.inl hj
  | cons q t ih =>
    obtain ⟨k2, v2⟩ := q
    by_cases hk2 : k2 = k
    · subst hk2
      simp only [upsert, if_pos rfl, if_true, List.map_cons, List.mem_cons] at hj ⊢
      rcases hj with hj | hj
      · exact Or.inl hj
      · exact Or.inr (Or.inr hj)
    · simp only [upsert, if_neg hk2, List.map_cons, List.mem_cons] at hj ⊢
      rcases hj with hj | hj
      · exact Or.inr (Or.inl hj)
      · rcases ih hj with hx | hx
        · exact Or.inl hx
        · exact Or.inr (Or.inr hx)

theorem upsert_keysNodup {k : Bytes} {v : MemVal} {l : List (Bytes × MemVal)}
    (h : KeysNodup l) : KeysNodup (upsert k v l) := by
  induction l with
  | nil => simp [upsert, KeysNodup]
  | cons q t ih =>
    obtain ⟨k', v'⟩ := q
    unfold KeysNodup at h
    simp only [List.map_cons, List.nodup_cons] at h
    by_cases hk : k' = k
    · subst hk
      unfold upsert
      rw [if_pos rfl]
      unfold KeysNodup
      simp only [List.map_cons, List.nodup_cons]
      exact h
    · unfold upsert
      rw [if_neg hk]
      unfold KeysNodup
      simp only [List.map_cons, List.nodup_cons]
      refine ⟨?_, ih h.2⟩
      intro hmem
      rcases mem_keys_upsert hmem with hx | hx
      · exact hk hx
      · exact h.1 hx

theorem alookup_upsert_same (k : Bytes) (v : MemVal) (l : List (Bytes × MemVal)) :
    alookup k (upsert k v l) = some v := by
  induction l with
  | nil => simp [upsert, alookup]
  | cons q t ih =>
    obtain ⟨k', v'⟩ := q
    by_cases hk : k' = k
    · subst hk
      simp [upsert, alookup]
    · simp [upsert, alookup, hk, ih]

theorem alookup_upsert_other {k j : Bytes} (hne : j ≠ k) (v : MemVal)
    (l : List (Bytes × MemVal)) :
    alookup j (upsert k v l) = alookup j l := by
  have hne' : k ≠ j := fun h => hne h.symm
  induction l with
  | nil => simp [upsert, alookup, hne']
  | cons q t ih =>
    obtain ⟨k', v'⟩ := q
    by_cases hk : k' = k
    · subst hk
      simp [upsert, alookup, hne']
    · simp only [upsert, if_neg hk, alookup]
      by_cases hj : k' = j
      · simp [hj]
      · simp [hj, ih]

theorem insertByKey_perm (p : Bytes × MemVal) (l : List (Bytes × MemVal)) :
    (insertByKey p l).Perm (p :: l) := by
  induction l with
  | nil => simp [insertByKey]
  | cons q t ih =>
    by_cases h : byteLt p.1 q.1
    · simp [insertByKey, h]
    · simp only [insertByKey, if_neg h]
      exact List.Perm.trans (List.Perm.cons q ih) (List.Perm.swap p q t)

theorem sortByKey_perm (l : List (Bytes × MemVal)) : (sortByKey l).Perm l := by
  induction l with
  | nil => simp [sortByKey]
  | cons p t ih =>
    exact List.Perm.trans (insertByKey_perm p (sortByKey t)) (List.Perm.cons p ih)

theorem insertByKey_sorted {p : Bytes × MemVal} {l : List (Bytes × MemVal)}
    (h : KeySortedLe l) : KeySortedLe (insertByKey p l) := by
  induction l with
  | nil => simp [insertByKey, KeySortedLe]
  | cons q t ih =>
    unfold KeySortedLe at h
    rw [List.pairwise_cons] at h
    by_cases hlt : byteLt p.1 q.1
    · unfold KeySortedLe
      simp only [insertByKey, if_pos hlt]
      rw [List.pairwise_cons]
      refine ⟨?_, ?_⟩
      · intro r hr
        rcases List.mem_cons.mp hr with hr | hr
        · subst hr
          exact byteLe_of_lt hlt
        · exact byteLe_trans (byteLe_of_lt hlt) (h.1 r hr)
      · rw [List.pairwise_cons]
        exact h
    · unfold KeySortedLe
      simp only [insertByKey, if_neg hlt]
      rw [List.pairwise_cons]
      refine ⟨?_, ih h.2⟩
      intro r hr
      have hm := (insertByKey_perm p t).mem_iff.mp hr
      rcases List.mem_cons.mp hm with hr' | hr'
      · subst hr'
        exact byteLe_of_not_lt hlt
      · exact h.1 r hr'

theorem sortByKey_sorted (l : List (Bytes × MemVal)) : KeySortedLe (sortByKey l) := by
  induction l with
  | nil => simp [sortByKey, KeySortedLe]
  | cons p t ih => exact insertByKey_sorted ih

theorem stepWrite_open (st : WriteSt) (e : Entry) (h0 : st.blockEntryCount = 0) :
    stepWrite st e =
      { offset := st.offset + entrySize e,
        indexEntries := st.indexEntries,
        blockEntryCount := 1,
        totalEntryCount := st.totalEntryCount + 1,
        blockStartOffset := st.offset,
        firstBlockKey := e.key,
        smallestKey := if st.totalEntryCount = 0 then some e.key else st.smallestKey,
        largestKey := some e.key } := by
  by_cases ht : st.totalEntryCount = 0 <;>
    simp [stepWrite, h0, ht, BLOCK_SIZE]

theorem stepWrite_mid (st : WriteSt) (e : Entry) (h1 : 0 < st.blockEntryCount)
    (h2 : st.blockEntryCount + 1 < BLOCK_SIZE) :
    stepWrite st e =
      { st with
        offset := st.offset + entrySize e,
        blockEntryCount := st.blockEntryCount + 1,
        totalEntryCount := st.totalEntryCount + 1,
        smallestKey := if st.totalEntryCount = 0 then some e.key else st.smallestKey,
        largestKey := some e.key } := by
  by_cases ht : st.totalEntryCount = 0 <;>
    simp [stepWrite, Nat.ne_of_gt h1, ht] <;> omega

theorem stepWrite_close (st : WriteSt) (e : Entry)
    (h1 : st.blockEntryCount + 1 = BLOCK_SIZE) :
    stepWrite st e =
      { st with
        offset := st.offset + entrySize e,
        indexEntries := st.indexEntries ++ [⟨st.blockStartOffset, st.firstBlockKey⟩],
        blockEntryCount := 0,
        totalEntryCount := st.totalEntryCount + 1,
        firstBlockKey := [],
        smallestKey := if st.totalEntryCount = 0 then some e.key else st.smallestKey,
        largestKey := some e.key } := by
  have h0 : st.blockEntryCount ≠ 0 := by
    intro h
    rw [h] at h1
    simp [BLOCK_SIZE] at h1
  by_cases ht : st.totalEntryCount = 0 <;>
    simp [stepWrite, h0, ht, h1, BLOCK_SIZE]

theorem stepWrite_offset (st : WriteSt) (e : Entry) :
    (stepWrite st e).offset = st.offset + entrySize e := by
  by_cases ht : st.totalEntryCount = 0 <;>
    by_cases hb : st.blockEntryCount = 0 <;>
      simp [stepWrite, ht, hb] <;> split <;> rfl

theorem stepWrite_total (st : WriteSt) (e : Entry) :
    (stepWrite st e).totalEntryCount = st.totalEntryCount + 1 := by
  by_cases ht : st.totalEntryCount = 0 <;>
    by_cases hb : st.blockEntryCount = 0 <;>
      simp [stepWrite, ht, hb] <;> split <;> rfl

theorem stepWrite_smallest (st : WriteSt) (e : Entry) :
    (stepWrite st e).smallestKey =
      if st.totalEntryCount = 0 then some e.key else st.smallestKey := by
  by_cases ht : st.totalEntryCount = 0 <;>
    by_cases hb : st.blockEntryCount = 0 <;>
      simp [stepWrite, ht, hb] <;> split <;> rfl

theorem writePass_offset (es : List Entry) (st : WriteSt) :
    (writePass st es).offset = st.offset + sizeSum es := by
  induction es generalizing st with
  | nil => simp [writePass, sizeSum]
  | cons e rest ih =>
    simp [writePass, ih, stepWrite_offset, sizeSum]
    omega

theorem writePass_total (es : List Entry) (st : WriteSt) :
    (writePass st es).totalEntryCount = st.totalEntryCount + es.length := by
  induction es generalizing st with
  | nil => simp [writePass]
  | cons e rest ih =>
    simp [writePass, ih, stepWrite_total]
    omega

theorem writePass_smallest_pos (es : List Entry) (st : WriteSt)
    (h : st.totalEntryCount ≠ 0) :
    (writePass st es).smallestKey = st.smallestKey := by
  induction es generalizing st with
  | nil => simp [writePass]
  | cons e rest ih =>
    have ht : (stepWrite st e).totalEntryCount ≠ 0 := by
      rw [stepWrite_total]; omega
    simp [writePass, ih _ ht, stepWrite_smallest, h]

theorem writePass_smallest_zero (es : List Entry) (st : WriteSt)
    (h : st.totalEntryCount = 0) (hne : es ≠ []) :
    (writePass st es).smallestKey = some (es.headD default).key := by
  match es with
  | e :: rest =>
    have ht : (stepWrite st e).totalEntryCount ≠ 0 := by
      rw [stepWrite_total]; omega
    simp [writePass, writePass_smallest_pos rest _ ht, stepWrite_smallest, h]

theorem finishBlocks_offset (st : WriteSt) : (finishBlocks st).offset = st.offset := by
  unfold finishBlocks; split <;> rfl

theorem finishBlocks_total (st : WriteSt) :
    (finishBlocks st).totalEntryCount = st.totalEntryCount := by
  unfold finishBlocks; split <;> rfl

theorem finishBlocks_smallest (st : WriteSt) :
    (finishBlocks st).smallestKey = st.smallestKey := by
  unfold finishBlocks; split <;> rfl

theorem sizeSum_cons (e : Entry) (l : List Entry) :
    sizeSum (e :: l) = entrySize e + sizeSum l := by
  simp [sizeSum]

/-- Core writer invariant: from a block boundary the loop followed by the
final-partial-block close produces exactly the specification index; from
inside an open block it first closes the block under construction. -/
theorem writer_index_main (n : Nat) :
    ∀ (es : List Entry) (st : WriteSt), es.length ≤ n →
    (st.blockEntryCount = 0 →
      (finishBlocks (writePass st es)).indexEntries =
        st.indexEntries ++ buildIndex st.offset es) ∧
    (0 < st.blockEntryCount → st.blockEntryCount < BLOCK_SIZE →
      (finishBlocks (writePass st es)).indexEntries =
        st.indexEntries ++ ⟨st.blockStartOffset, st.firstBlockKey⟩ ::
          buildIndex
            (st.offset + sizeSum (es.take (BLOCK_SIZE - st.blockEntryCount)))
            (es.drop (BLOCK_SIZE - st.blockEntryCount))) := by
  induction n with
  | zero =>
    intro es st hlen
    have hes : es = [] := List.length_eq_zero.mp (Nat.le_zero.mp hlen)
    subst hes
    constructor
    · intro h0
      simp [writePass, finishBlocks, h0, buildIndex]
    · intro h1 _
      simp [writePass, finishBlocks, h1, buildIndex]
  | succ n ih =>
    intro es st hlen
    match es with
    | [] =>
      constructor
      · intro h0
        simp [writePass, finishBlocks, h0, buildIndex]
      · intro h1 _
        simp [writePass, finishBlocks, h1, buildIndex]
    | e :: rest =>
      have hrest : rest.length ≤ n := by
        simp at hlen; omega
      constructor
      · intro h0
        have hstep := stepWrite_open st e h0
        have h64 : (1 : Nat) < BLOCK_SIZE := by simp [BLOCK_SIZE]
        have := (ih rest (stepWrite st e) hrest).2
        rw [hstep] at this
        simp only at this
        have hmain := this (by omega) h64
        show (finishBlocks (writePass (stepWrite st e) rest)).indexEntries = _
        rw [hstep]
        rw [hmain]
        have htk : (e :: rest).take BLOCK_SIZE = e :: rest.take (BLOCK_SIZE - 1) := by
          show (e :: rest).take (63 + 1) = e :: rest.take 63
          rw [List.take_succ_cons]
        have hdr : (e :: rest).drop BLOCK_SIZE = rest.drop (BLOCK_SIZE - 1) := by
          show (e :: rest).drop (63 + 1) = rest.drop 63
          rw [List.drop_succ_cons]
        rw [show buildIndex st.offset (e :: rest) =
          ⟨st.offset, e.key⟩ ::
            buildIndex (st.offset + sizeSum ((e :: rest).take BLOCK_SIZE))
              ((e :: rest).drop BLOCK_SIZE) from by rw [buildIndex]]
        rw [htk, hdr, sizeSum_cons]
        simp [Nat.add_assoc]
      · intro h1 h2
        by_cases hclose : st.blockEntryCount + 1 = BLOCK_SIZE
        · have hstep := stepWrite_close st e hclose
          have := (ih rest (stepWrite st e) hrest).1
          rw [hstep] at this
          simp only at this
          have hmain := this trivial
          show (finishBlocks (writePass (stepWrite st e) rest)).indexEntries = _
          rw [hstep]
          rw [hmain]
          have hk1 : BLOCK_SIZE - st.blockEntryCount = 1 := by omega
          rw [hk1]
          simp [sizeSum_cons, sizeSum]
        · have hmid : st.blockEntryCount + 1 < BLOCK_SIZE := by omega
          have hstep := stepWrite_mid st e h1 hmid
          have := (ih rest (stepWrite st e) hrest).2
          rw [hstep] at this
          simp only at this
          have hmain := this (by omega) hmid
          show (finishBlocks (writePass (stepWrite st e) rest)).indexEntries = _
          rw [hstep]
          rw [hmain]
          obtain ⟨k, hk⟩ : ∃ k, BLOCK_SIZE - st.blockEntryCount = k + 1 :=
            ⟨BLOCK_SIZE - st.blockEntryCount - 1, by omega⟩
          have hk2 : BLOCK_SIZE - (st.blockEntryCount + 1) = k := by omega
          rw [hk, hk2, List.take_succ_cons, List.drop_succ_cons, sizeSum_cons]
          simp [Nat.add_assoc]

/-- The emitted index is exactly the specification index: one entry per
64-entry data block, holding the block start offset and first key, the
final partial block closed identically. -/
theorem writeSSTable_index (es : List Entry) :
    (writeSSTable es).index = buildIndex 0 es := by
  have h := (writer_index_main es.length es initWriteSt (Nat.le_refl _)).1 rfl
  simpa [writeSSTable, initWriteSt] using h

/-- The emitted footer has equal filter and index offsets (the filter
region is empty). -/
theorem writeSSTable_footer_eq (es : List Entry) :
    (writeSSTable es).footer.filterOffset = (writeSSTable es).footer.indexOffset := rfl

theorem findLoop_spec (entries : List IdxEntry) (key : Bytes)
    (hs : IdxSorted entries) :
    ∀ (d left right : Nat), right - left ≤ d → left ≤ right →
    right ≤ entries.length →
    (∀ i, i < left → byteLe (entries.getD i default).key key) →
    (∀ i, right ≤ i → i < entries.length →
      byteLt key (entries.getD i default).key) →
    left ≤ findLoop entries key left right ∧
    findLoop entries key left right ≤ right ∧
    (∀ i, i < findLoop entries key left right →
      byteLe (entries.getD i default).key key) ∧
    (∀ i, findLoop entries key left right ≤ i → i < entries.length →
      byteLt key (entries.getD i default).key) := by
  intro d
  induction d with
  | zero =>
    intro left right hd hlr hrlen hlo hhi
    have : left = right := by omega
    subst this
    rw [findLoop]
    simp only [lt_irrefl, dite_false]
    exact ⟨Nat.le_refl _, Nat.le_refl _, hlo, hhi⟩
  | succ d ih =>
    intro left right hd hlr hrlen hlo hhi
    by_cases hlt : left < right
    · rw [findLoop]
      rw [dif_pos hlt]
      simp only
      set mid := (left + right) / 2 with hmid
      have hmid1 : left ≤ mid := by omega
      have hmid2 : mid < right := by omega
      by_cases hc : byteLe (entries.getD mid default).key key
      · rw [if_pos hc]
        have hlo' : ∀ i, i < mid + 1 → byteLe (entries.getD i default).key key := by
          intro i hi
          by_cases hi2 : i < left
          · exact hlo i hi2
          · by_cases hi3 : i = mid
            · subst hi3; exact hc
            · have hilt : i < mid := by omega
              exact byteLe_trans
                (byteLe_of_lt (hs i mid hilt (by omega)))
                hc
        have := ih (mid + 1) right (by omega) (by omega) hrlen hlo' hhi
        exact ⟨by omega, this.2.1, this.2.2.1, this.2.2.2⟩
      · rw [if_neg hc]
        have hkey : byteLt key (entries.getD mid default).key := byteLt_of_not_le hc
        have hhi' : ∀ i, mid ≤ i → i < entries.length →
            byteLt key (entries.getD i default).key := by
          intro i hi hi2
          by_cases hi3 : i = mid
          · subst hi3; exact hkey
          · exact byteLt_trans hkey (hs mid i (by omega) hi2)
        have := ih left mid (by omega) (by omega) (by omega) hlo hhi'
        exact ⟨this.1, by omega, this.2.2.1, this.2.2.2⟩
    · rw [findLoop]
      rw [dif_neg hlt]
      exact ⟨Nat.le_refl _, by omega, hlo, fun i hi hi2 => hhi i (by omega) hi2⟩

theorem mem_iff_getD {α : Type} [Inhabited α] (l : List α) (a : α) :
    a ∈ l ↔ ∃ i, i < l.length ∧ l.getD i default = a := by
  rw [List.mem_iff_getElem]
  constructor
  · rintro ⟨i, hi, he⟩
    exact ⟨i, hi, by rw [List.getD_eq_getElem l default hi]; exact he⟩
  · rintro ⟨i, hi, he⟩
    exact ⟨i, hi, by rw [← List.getD_eq_getElem l default hi]; exact he⟩

theorem blockLoop_none (entries : List Entry) (key : Bytes) :
    ∀ (d left right : Nat), right - left ≤ d → right ≤ entries.length →
    (∀ i, left ≤ i → i < right → (entries.getD i default).key ≠ key) →
    blockLoop entries key left right = none := by
  intro d
  induction d with
  | zero =>
    intro left right hd _ _
    rw [blockLoop]
    rw [dif_neg (by omega)]
  | succ d ih =>
    intro left right hd hrlen hne
    by_cases hlt : left < right
    · rw [blockLoop]
      rw [dif_pos hlt]
      simp only
      set mid := (left + right) / 2 with hmid
      have hmid1 : left ≤ mid := by omega
      have hmid2 : mid < right := by omega
      cases hc : byteCompare key (entries.getD mid default).key
      · exact ih left mid (by omega) (by omega)
          (fun i h1 h2 => hne i h1 (by omega))
      · exfalso
        exact hne mid hmid1 hmid2 (byteCompare_eq_iff.mp hc).symm
      · exact ih (mid + 1) right (by omega) hrlen
          (fun i h1 h2 => hne i (by omega) h2)
    · rw [blockLoop]
      rw [dif_neg hlt]

theorem blockLoop_found (entries : List Entry) (key : Bytes)
    (hs : EsSorted entries) :
    ∀ (d left right : Nat), right - left ≤ d → right ≤ entries.length →
    ∀ i0, left ≤ i0 → i0 < right → (entries.getD i0 default).key = key →
    blockLoop entries key left right = some (entries.getD i0 default) := by
  intro d
  induction d with
  | zero =>
    intro left right hd _ i0 h1 h2 _
    omega
  | succ d ih =>
    intro left right hd hrlen i0 h1 h2 hkey
    have hlt : left < right := by omega
    rw [blockLoop]
    rw [dif_pos hlt]
    simp only
    set mid := (left + right) / 2 with hmid
    have hmid1 : left ≤ mid := by omega
    have hmid2 : mid < right := by omega
    cases hc : byteCompare key (entries.getD mid default).key
    · have hi0mid : i0 < mid := by
        rcases Nat.lt_trichotomy i0 mid with h | h | h
        · exact h
        · exfalso
          subst h
          rw [hkey] at hc
          rw [byteCompare_refl] at hc
          cases hc
        · exfalso
          have := hs mid i0 h (by omega)
          rw [hkey] at this
          have hkl : byteLt key (entries.getD mid default).key := hc
          exact byteLt_asymm this hkl
      exact ih left mid (by omega) (by omega) i0 h1 hi0mid hkey
    · have : key = (entries.getD mid default).key := byteCompare_eq_iff.mp hc
      have hmeq : mid = i0 := by
        rcases Nat.lt_trichotomy mid i0 with h | h | h
        · exfalso
          have hlt2 := hs mid i0 h (by omega)
          rw [hkey, ← this] at hlt2
          exact byteLt_irrefl key hlt2
        · exact h
        · exfalso
          have hlt2 := hs i0 mid h (by omega)
          rw [hkey, ← this] at hlt2
          exact byteLt_irrefl key hlt2
      rw [hmeq]
    · have hmk : byteLt (entries.getD mid default).key key := by
        unfold byteLt
        rw [byteCompare_swap]
        rw [hc]
        rfl
      have hi0mid : mid < i0 := by
        rcases Nat.lt_trichotomy i0 mid with h | h | h
        · exfalso
          have := hs i0 mid h (by omega)
          rw [hkey] at this
          exact byteLt_irrefl key (byteLt_trans this hmk)
        · exfalso
          subst h
          rw [hkey] at hmk
          exact byteLt_irrefl key hmk
        · exact h
      exact ih (mid + 1) right (by omega) hrlen i0 (by omega) h2 hkey

theorem blockGet_found (entries : List Entry) (key : Bytes)
    (hs : EsSorted entries) (i0 : Nat) (h1 : i0 < entries.length)
    (hkey : (entries.getD i0 default).key = key) :
    blockGet entries key = some (entries.getD i0 default) :=
  blockLoop_found entries key hs entries.length 0 entries.length
    (by omega) (Nat.le_refl _) i0 (by omega) h1 hkey

theorem blockGet_none (entries : List Entry) (key : Bytes)
    (hne : ∀ i, i < entries.length → (entries.getD i default).key ≠ key) :
    blockGet entries key = none :=
  blockLoop_none entries key entries.length 0 entries.length
    (by omega) (Nat.le_refl _) (fun i _ h2 => hne i h2)

/-! ## Closed forms for chunks and buildIndex -/
theorem getD_drop {α : Type} (m : Nat) (l : List α) (i : Nat) (d : α) :
    (l.drop m).getD i d = l.getD (m + i) d := by
  induction m generalizing l with
  | zero => simp
  | succ m ih =>
    cases l with
    | nil => simp
    | cons x t =>
      rw [List.drop_succ_cons, ih t,
        show m + 1 + i = (m + i) + 1 by omega, List.getD_cons_succ]

theorem sizeSum_append (a b : List Entry) :
    sizeSum (a ++ b) = sizeSum a + sizeSum b := by
  simp [sizeSum]

theorem entrySize_pos (e : Entry) : 0 < entrySize e := by
  unfold entrySize; omega

theorem chunks_getD (n : Nat) :
    ∀ (es : List Entry), es.length ≤ n → ∀ (i : Nat),
    (chunks es).getD i [] = (es.drop (BLOCK_SIZE * i)).take BLOCK_SIZE := by
  induction n with
  | zero =>
    intro es hlen i
    have hes : es = [] := List.length_eq_zero.mp (Nat.le_zero.mp hlen)
    subst hes
    rw [chunks]
    simp
  | succ n ih =>
    intro es hlen i
    match es with
    | [] =>
      rw [chunks]
      simp
    | e :: rest =>
      rw [chunks]
      match i with
      | 0 => simp
      | i + 1 =>
        have hlen2 : ((e :: rest).drop BLOCK_SIZE).length ≤ n := by
          simp [BLOCK_SIZE] at hlen ⊢
          omega
        rw [List.getD_cons_succ, ih _ hlen2 i, List.drop_drop]
        congr 2
        ring

theorem chunks_length_iff (n : Nat) :
    ∀ (es : List Entry), es.length ≤ n → ∀ (i : Nat),
    (i < (chunks es).length ↔ BLOCK_SIZE * i < es.length) := by
  induction n with
  | zero =>
    intro es hlen i
    have hes : es = [] := List.length_eq_zero.mp (Nat.le_zero.mp hlen)
    subst hes
    rw [chunks]
    simp
  | succ n ih =>
    intro es hlen i
    match es with
    | [] =>
      rw [chunks]
      simp
    | e :: rest =>
      rw [chunks]
      match i with
      | 0 => simp
      | i + 1 =>
        have hlen2 : ((e :: rest).drop BLOCK_SIZE).length ≤ n := by
          simp [BLOCK_SIZE] at hlen ⊢
          omega
        rw [List.length_cons, Nat.succ_lt_succ_iff, ih _ hlen2 i]
        simp [BLOCK_SIZE]
        omega

theorem buildIndex_length (n : Nat) :
    ∀ (es : List Entry) (off : Nat), es.length ≤ n →
    (buildIndex off es).length = (chunks es).length := by
  induction n with
  | zero =>
    intro es off hlen
    have hes : es = [] := List.length_eq_zero.mp (Nat.le_zero.mp hlen)
    subst hes
    rw [buildIndex, chunks]
    rfl
  | succ n ih =>
    intro es off hlen
    match es with
    | [] =>
      rw [buildIndex, chunks]
      rfl
    | e :: rest =>
      rw [buildIndex, chunks]
      have hlen2 : ((e :: rest).drop BLOCK_SIZE).length ≤ n := by
        simp [BLOCK_SIZE] at hlen ⊢
        omega
      simp [ih _ _ hlen2]

theorem buildIndex_getD (n : Nat) :
    ∀ (es : List Entry) (off i : Nat), es.length ≤ n →
    i < (buildIndex off es).length →
    (buildIndex off es).getD i default =
      ⟨off + sizeSum (es.take (BLOCK_SIZE * i)),
       (es.getD (BLOCK_SIZE * i) default).key⟩ := by
  induction n with
  | zero =>
    intro es off i hlen hi
    have hes : es = [] := List.length_eq_zero.mp (Nat.le_zero.mp hlen)
    subst hes
    rw [buildIndex] at hi
    simp at hi
  | succ n ih =>
    intro es off i hlen hi
    match es with
    | [] =>
      rw [buildIndex] at hi
      simp at hi
    | e :: rest =>
      rw [buildIndex] at hi ⊢
      match i with
      | 0 => simp [sizeSum]
      | i + 1 =>
        have hlen2 : ((e :: rest).drop BLOCK_SIZE).length ≤ n := by
          simp [BLOCK_SIZE] at hlen ⊢
          omega
        rw [List.getD_cons_succ]
        rw [List.length_cons, Nat.succ_lt_succ_iff] at hi
        rw [ih _ _ i hlen2 hi]
        have htk : (e :: rest).take (BLOCK_SIZE * (i + 1)) =
            (e :: rest).take BLOCK_SIZE ++
              (((e :: rest).drop BLOCK_SIZE).take (BLOCK_SIZE * i)) := by
          rw [← List.take_add]
          congr 1
          ring
        rw [htk, sizeSum_append, getD_drop]
        rw [show BLOCK_SIZE + BLOCK_SIZE * i = BLOCK_SIZE * (i + 1) from by ring]
        rw [Nat.add_assoc]

theorem chunksGetD (es : List Entry) (i : Nat) :
    (chunks es).getD i [] = (es.drop (BLOCK_SIZE * i)).take BLOCK_SIZE :=
  chunks_getD es.length es (Nat.le_refl _) i

theorem chunksLenIff (es : List Entry) (i : Nat) :
    i < (chunks es).length ↔ BLOCK_SIZE * i < es.length :=
  chunks_length_iff es.length es (Nat.le_refl _) i

theorem biLength (off : Nat) (es : List Entry) :
    (buildIndex off es).length = (chunks es).length :=
  buildIndex_length es.length es off (Nat.le_refl _)

theorem biGetD (off : Nat) (es : List Entry) (i : Nat)
    (hi : i < (buildIndex off es).length) :
    (buildIndex off es).getD i default =
      ⟨off + sizeSum (es.take (BLOCK_SIZE * i)),
       (es.getD (BLOCK_SIZE * i) default).key⟩ :=
  buildIndex_getD es.length es off i (Nat.le_refl _) hi

theorem buildIndex_nil_iff (off : Nat) (es : List Entry) :
    buildIndex off es = [] ↔ es = [] := by
  match es with
  | [] =>
    rw [buildIndex]
    simp
  | e :: rest =>
    rw [buildIndex]
    simp

theorem sizeSum_take_lt (es : List Entry) :
    ∀ (a b : Nat), a < b → a < es.length →
    sizeSum (es.take a) < sizeSum (es.take b) := by
  induction es with
  | nil =>
    intro a b _ ha
    simp at ha
  | cons e rest ih =>
    intro a b hab ha
    match a, b with
    | 0, b + 1 =>
      simp only [List.take_zero, List.take_succ_cons, sizeSum_cons]
      have := entrySize_pos e
      have : 0 ≤ sizeSum (rest.take b) := Nat.zero_le _
      simp [sizeSum]
      omega
    | a + 1, b + 1 =>
      simp only [List.take_succ_cons, sizeSum_cons]
      have := ih a b (by omega) (by simp at ha; omega)
      omega

theorem getD_take {α : Type} (l : List α) :
    ∀ (n a : Nat) (d : α), a < n → (l.take n).getD a d = l.getD a d := by
  induction l with
  | nil => intro n a d _; simp
  | cons x t ih =>
    intro n a d han
    match n, a with
    | n + 1, 0 => simp
    | n + 1, a + 1 =>
      rw [List.take_succ_cons, List.getD_cons_succ, List.getD_cons_succ]
      exact ih n a d (by omega)

theorem lookupEntry_none_iff (es : List Entry) (key : Bytes) :
    lookupEntry es key = none ↔ ∀ e ∈ es, e.key ≠ key := by
  induction es with
  | nil => simp [lookupEntry]
  | cons e rest ih =>
    by_cases h : e.key = key
    · simp [lookupEntry, h]
    · simp [lookupEntry, h, ih]

theorem lookupEntry_some_mem {es : List Entry} {key : Bytes} {e : Entry}
    (h : lookupEntry es key = some e) : e ∈ es ∧ e.key = key := by
  induction es with
  | nil => simp [lookupEntry] at h
  | cons e2 rest ih =>
    by_cases h2 : e2.key = key
    · rw [lookupEntry, if_pos h2] at h
      cases h
      exact ⟨List.mem_cons_self _ _, h2⟩
    · rw [lookupEntry, if_neg h2] at h
      have := ih h
      exact ⟨List.mem_cons_of_mem _ this.1, this.2⟩

theorem lookupEntry_isSome_of_mem {es : List Entry} {key : Bytes} {e : Entry}
    (hmem : e ∈ es) (hkey : e.key = key) : lookupEntry es key ≠ none := by
  induction es with
  | nil => simp at hmem
  | cons e2 rest ih =>
    rcases List.mem_cons.mp hmem with h | h
    · subst h
      simp [lookupEntry, hkey]
    · by_cases h2 : e2.key = key
      · simp [lookupEntry, h2]
      · rw [lookupEntry, if_neg h2]
        exact ih h

theorem findOffsetIdx_spec (entries : List IdxEntry) (off : Nat)
    (hs : IdxOffSorted entries) (i0 : Nat) (hi0 : i0 < entries.length)
    (hoff : (entries.getD i0 default).blockOffset = off) :
    findOffsetIdx entries off = some i0 := by
  induction entries generalizing i0 with
  | nil => simp at hi0
  | cons en rest ih =>
    match i0 with
    | 0 =>
      simp only [List.getD_cons_zero] at hoff
      simp [findOffsetIdx, hoff]
    | i0 + 1 =>
      have hne : en.blockOffset ≠ off := by
        have := hs 0 (i0 + 1) (by omega) hi0
        simp only [List.getD_cons_zero] at this
        omega
      rw [findOffsetIdx, if_neg hne]
      have hs2 : IdxOffSorted rest := by
        intro i j hij hj
        have := hs (i + 1) (j + 1) (by omega) (by simp; omega)
        simpa using this
      rw [ih hs2 i0 (by simp at hi0; omega)
        (by rw [List.getD_cons_succ] at hoff; exact hoff)]
      rfl

theorem headD_eq_getD_zero {α : Type} [Inhabited α] (l : List α) :
    l.headD default = l.getD 0 default := by
  cases l <;> rfl

theorem fbo_none {entries : List IdxEntry} {key : Bytes}
    (h : findBlockOffset entries key = none) :
    entries = [] ∨ byteLt key ((entries.getD 0 default).key) := by
  unfold findBlockOffset at h
  by_cases he : entries = []
  · exact Or.inl he
  · rw [if_neg he] at h
    by_cases hlt : byteLt key (entries.headD default).key
    · right
      rw [← headD_eq_getD_zero]
      exact hlt
    · rw [if_neg hlt] at h
      cases h

theorem fbo_some {entries : List IdxEntry} {key : Bytes} {off : Nat}
    (hs : IdxSorted entries) (h : findBlockOffset entries key = some off) :
    ∃ i, i < entries.length ∧ (entries.getD i default).blockOffset = off ∧
      byteLe (entries.getD i default).key key ∧
      ∀ j, i < j → j < entries.length →
        byteLt key (entries.getD j default).key := by
  unfold findBlockOffset at h
  by_cases he : entries = []
  · rw [if_pos he] at h
    cases h
  · rw [if_neg he] at h
    by_cases hlt : byteLt key (entries.headD default).key
    · rw [if_pos hlt] at h
      cases h
    · rw [if_neg hlt] at h
      have hlen : 0 < entries.length := List.length_pos.mpr he
      have spec := findLoop_spec entries key hs entries.length 0 entries.length
        (by omega) (by omega) (Nat.le_refl _)
        (by intro i hi; omega)
        (by intro i hi hi2; omega)
      set res := findLoop entries key 0 entries.length with hres
      have hres1 : 1 ≤ res := by
        by_contra hc
        have hr0 : res = 0 := by omega
        have := spec.2.2.2 0 (by omega) hlen
        rw [← headD_eq_getD_zero] at this
        exact hlt this
      refine ⟨res - 1, by omega, ?_, ?_, ?_⟩
      · cases h
        rfl
      · exact spec.2.2.1 (res - 1) (by omega)
      · intro j hj hj2
        exact spec.2.2.2 j (by omega) hj2

theorem buildIndex_idxSorted (es : List Entry) (hs : EsSorted es) :
    IdxSorted (buildIndex 0 es) := by
  intro i j hij hj
  have hi : i < (buildIndex 0 es).length := by omega
  rw [biGetD 0 es i hi, biGetD 0 es j hj]
  simp only
  have hjlen : BLOCK_SIZE * j < es.length := by
    rw [biLength] at hj
    exact (chunksLenIff es j).mp hj
  exact hs (BLOCK_SIZE * i) (BLOCK_SIZE * j)
    (by unfold BLOCK_SIZE; omega)
    hjlen

theorem buildIndex_offSorted (es : List Entry) :
    IdxOffSorted (buildIndex 0 es) := by
  intro i j hij hj
  have hi : i < (buildIndex 0 es).length := by omega
  rw [biGetD 0 es i hi, biGetD 0 es j hj]
  simp only [Nat.zero_add]
  have hilen : BLOCK_SIZE * i < es.length := by
    rw [biLength] at hi
    exact (chunksLenIff es i).mp hi
  exact sizeSum_take_lt es (BLOCK_SIZE * i) (BLOCK_SIZE * j)
    (by unfold BLOCK_SIZE; omega)
    hilen

theorem blk_length (es : List Entry) (i : Nat) :
    ((chunks es).getD i []).length =
      min BLOCK_SIZE (es.length - BLOCK_SIZE * i) := by
  rw [chunksGetD]
  simp

theorem blk_getD (es : List Entry) (i a : Nat)
    (ha : a < ((chunks es).getD i []).length) :
    ((chunks es).getD i []).getD a default =
      es.getD (BLOCK_SIZE * i + a) default := by
  rw [blk_length] at ha
  rw [chunksGetD, getD_take _ _ _ _ (by omega), getD_drop]

theorem blk_sorted (es : List Entry) (hs : EsSorted es) (i : Nat) :
    EsSorted ((chunks es).getD i []) := by
  intro a b hab hb
  have hb2 := hb
  rw [blk_length] at hb2
  rw [blk_getD es i a (by omega), blk_getD es i b hb]
  exact hs (BLOCK_SIZE * i + a) (BLOCK_SIZE * i + b) (by omega) (by omega)

/-- Central table roundtrip: reading a key from a table written from a
strictly ascending entry stream returns exactly the entry the stream
recorded for that key, and NotFound otherwise. -/
theorem tableGet_lookup (es : List Entry) (key : Bytes) (hs : EsSorted es) :
    tableGet es key =
      (match lookupEntry es key with
       | none => TGet.notFound
       | some e => TGet.found e) := by
  cases hfbo : findBlockOffset (buildIndex 0 es) key with
  | none =>
    rcases fbo_none hfbo with hemp | hlt
    · have hese : es = [] := (buildIndex_nil_iff 0 es).mp hemp
      subst hese
      rw [tableGet, hfbo]
      rfl
    · have hnone : lookupEntry es key = none := by
        rw [lookupEntry_none_iff]
        intro e hmem hkeq
        obtain ⟨p, hp, hpe⟩ := (mem_iff_getD es e).mp hmem
        have hne : es ≠ [] := by
          intro hc
          rw [hc] at hp
          simp at hp
        have hilen : 0 < (buildIndex 0 es).length := by
          rw [biLength]
          rw [chunksLenIff]
          simp [BLOCK_SIZE]
          omega
        have hkey0 : ((buildIndex 0 es).getD 0 default).key =
            (es.getD 0 default).key := by
          rw [biGetD 0 es 0 hilen]
          simp
        rw [hkey0] at hlt
        have hle0p : byteLe (es.getD 0 default).key (es.getD p default).key := by
          rcases Nat.eq_zero_or_pos p with h0 | h0
          · subst h0
            exact byteLe_refl _
          · exact byteLe_of_lt (hs 0 p h0 hp)
        rw [hpe, hkeq] at hle0p
        exact byteLt_irrefl key (byteLt_of_lt_of_le hlt hle0p)
      rw [tableGet, hfbo, hnone]
  | some off =>
    obtain ⟨i, hi, hioff, hile, higt⟩ :=
      fbo_some (buildIndex_idxSorted es hs) hfbo
    have hfind : findOffsetIdx (buildIndex 0 es) off = some i :=
      findOffsetIdx_spec _ off (buildIndex_offSorted es) i hi hioff
    have hchunki : i < (chunks es).length := by
      rw [← biLength 0 es]
      exact hi
    have h64i : BLOCK_SIZE * i < es.length := (chunksLenIff es i).mp hchunki
    have hkeyi : ((buildIndex 0 es).getD i default).key =
        (es.getD (BLOCK_SIZE * i) default).key := by
      rw [biGetD 0 es i hi]
    cases hlook : lookupEntry es key with
    | some e =>
      obtain ⟨hmem, hkey⟩ := lookupEntry_some_mem hlook
      obtain ⟨p, hp, hpe⟩ := (mem_iff_getD es e).mp hmem
      have hpkey : (es.getD p default).key = key := by rw [hpe, hkey]
      have hpge : BLOCK_SIZE * i ≤ p := by
        by_contra hpc
        have hplt : p < BLOCK_SIZE * i := by omega
        have hlt2 := hs p (BLOCK_SIZE * i) hplt h64i
        rw [hpkey] at hlt2
        rw [hkeyi] at hile
        exact byteLt_irrefl _ (byteLt_of_le_of_lt hile hlt2)
      have hblklen : ((chunks es).getD i []).length =
          min BLOCK_SIZE (es.length - BLOCK_SIZE * i) := blk_length es i
      have hplt2 : p < BLOCK_SIZE * i + ((chunks es).getD i []).length := by
        by_contra hpc
        have hge : BLOCK_SIZE * i + ((chunks es).getD i []).length ≤ p := by omega
        rw [hblklen] at hge
        have hmin : min BLOCK_SIZE (es.length - BLOCK_SIZE * i) =
            BLOCK_SIZE ∨ min BLOCK_SIZE (es.length - BLOCK_SIZE * i) =
            es.length - BLOCK_SIZE * i := by omega
        rcases hmin with hm | hm
        · rw [hm] at hge
          have hsuc : BLOCK_SIZE * (i + 1) ≤ p := by
            rw [Nat.mul_add, Nat.mul_one]
            omega
          have hsuclen : i + 1 < (buildIndex 0 es).length := by
            rw [biLength, chunksLenIff]
            omega
          have hgt := higt (i + 1) (by omega) hsuclen
          have hkeysuc : ((buildIndex 0 es).getD (i + 1) default).key =
              (es.getD (BLOCK_SIZE * (i + 1)) default).key := by
            rw [biGetD 0 es (i + 1) hsuclen]
          rw [hkeysuc] at hgt
          have hlesucp :
              byteLe (es.getD (BLOCK_SIZE * (i + 1)) default).key
                (es.getD p default).key := by
            rcases Nat.eq_or_lt_of_le hsuc with h0 | h0
            · rw [h0]
              exact byteLe_refl _
            · exact byteLe_of_lt (hs (BLOCK_SIZE * (i + 1)) p h0 hp)
          rw [hpkey] at hlesucp
          exact byteLt_irrefl key (byteLt_of_lt_of_le hgt hlesucp)
        · rw [hm] at hge
          omega
      have ha : p - BLOCK_SIZE * i < ((chunks es).getD i []).length := by omega
      have hblkp : ((chunks es).getD i []).getD (p - BLOCK_SIZE * i) default =
          es.getD p default := by
        rw [blk_getD es i _ ha]
        congr 1
        omega
      have hbg : blockGet ((chunks es).getD i []) key =
          some (((chunks es).getD i []).getD (p - BLOCK_SIZE * i) default) :=
        blockGet_found _ key (blk_sorted es hs i) _ ha (by rw [hblkp, hpkey])
      rw [tableGet]
      simp only [hfbo, hfind, hbg, hblkp, hpe]
    | none =>
      have hq : ∀ q, q < ((chunks es).getD i []).length →
          (((chunks es).getD i []).getD q default).key ≠ key := by
        intro q hql hkeq
        have hqlen : BLOCK_SIZE * i + q < es.length := by
          have := blk_length es i
          omega
        rw [blk_getD es i q hql] at hkeq
        have hmem : es.getD (BLOCK_SIZE * i + q) default ∈ es := by
          rw [mem_iff_getD]
          exact ⟨BLOCK_SIZE * i + q, hqlen, rfl⟩
        exact lookupEntry_isSome_of_mem hmem hkeq hlook
      have hbg : blockGet ((chunks es).getD i []) key = none :=
        blockGet_none _ key hq
      rw [tableGet]
      simp only [hfbo, hfind, hbg]

/-! ## Bridging lemmas: memtable iterator vs memtable lookup -/
theorem alookup_some_mem {k : Bytes} {v : MemVal} {l : List (Bytes × MemVal)}
    (h : alookup k l = some v) : (k, v) ∈ l := by
  induction l with
  | nil => simp [alookup] at h
  | cons q t ih =>
    obtain ⟨k', v'⟩ := q
    by_cases hk : k' = k
    · subst hk
      rw [alookup, if_pos rfl] at h
      cases h
      exact List.mem_cons_self _ _
    · rw [alookup, if_neg hk] at h
      exact List.mem_cons_of_mem _ (ih h)

theorem alookup_some_of_mem {k : Bytes} {v : MemVal} {l : List (Bytes × MemVal)}
    (hnd : KeysNodup l) (h : (k, v) ∈ l) : alookup k l = some v := by
  induction l with
  | nil => simp at h
  | cons q t ih =>
    obtain ⟨k', v'⟩ := q
    unfold KeysNodup at hnd
    simp only [List.map_cons, List.nodup_cons] at hnd
    rcases List.mem_cons.mp h with h1 | h1
    · cases h1
      rw [alookup, if_pos rfl]
    · have hk : k' ≠ k := by
        intro hc
        subst hc
        exact hnd.1 (List.mem_map_of_mem Prod.fst h1)
      rw [alookup, if_neg hk]
      exact ih hnd.2 h1

theorem alookup_none_iff {k : Bytes} {l : List (Bytes × MemVal)} :
    alookup k l = none ↔ k ∉ l.map Prod.fst := by
  induction l with
  | nil => simp [alookup]
  | cons q t ih =>
    obtain ⟨k', v'⟩ := q
    by_cases hk : k' = k
    · subst hk
      simp [alookup]
    · rw [alookup, if_neg hk, ih]
      simp only [List.map_cons, List.mem_cons]
      constructor
      · intro h hc
        rcases hc with hc | hc
        · exact hk hc.symm
        · exact h hc
      · intro h hc
        exact h (Or.inr hc)

theorem alookup_perm_eq {l1 l2 : List (Bytes × MemVal)} (k : Bytes)
    (hnd : KeysNodup l2) (hp : l1.Perm l2) : alookup k l1 = alookup k l2 := by
  cases h1 : alookup k l1 with
  | some v =>
    exact (alookup_some_of_mem hnd (hp.mem_iff.mp (alookup_some_mem h1))).symm
  | none =>
    rw [alookup_none_iff] at h1
    have : k ∉ l2.map Prod.fst := by
      intro hc
      exact h1 ((hp.map Prod.fst).mem_iff.mpr hc)
    rw [eq_comm, alookup_none_iff]
    exact this

theorem lookupEntry_map_clone (l : List (Bytes × MemVal)) (k : Bytes) :
    lookupEntry (l.map (fun p => ⟨p.2.etype, p.2.seq, p.1, p.2.value⟩)) k =
      (alookup k l).map (fun v => ⟨v.etype, v.seq, k, v.value⟩) := by
  induction l with
  | nil => simp [lookupEntry, alookup]
  | cons q t ih =>
    obtain ⟨k', v⟩ := q
    by_cases hk : k' = k
    · subst hk
      simp [lookupEntry, alookup]
    · simp only [List.map_cons, lookupEntry, alookup, if_neg hk]
      exact ih

theorem sortByKey_keysNodup {l : List (Bytes × MemVal)} (hnd : KeysNodup l) :
    KeysNodup (sortByKey l) := by
  unfold KeysNodup at *
  exact ((sortByKey_perm l).map Prod.fst).nodup_iff.mpr hnd

theorem memIterator_memGet (m : Memtable) (hnd : KeysNodup m.items)
    (k : Bytes) : lookupEntry (memIterator m) k = memGet m k := by
  unfold memIterator memGet
  rw [lookupEntry_map_clone]
  rw [alookup_perm_eq k hnd (sortByKey_perm m.items)]

theorem pairwise_to_esSorted {es : List Entry}
    (h : es.Pairwise (fun a b => byteLt a.key b.key)) : EsSorted es := by
  intro i j hij hj
  rw [List.pairwise_iff_getElem] at h
  rw [List.getD_eq_getElem es default (by omega), List.getD_eq_getElem es default hj]
  exact h i j (by omega) hj hij

theorem memIterator_esSorted (m : Memtable) (hnd : KeysNodup m.items) :
    EsSorted (memIterator m) := by
  apply pairwise_to_esSorted
  unfold memIterator
  rw [List.pairwise_map]
  have hle : (sortByKey m.items).Pairwise (fun p q => byteLe p.1 q.1) :=
    sortByKey_sorted m.items
  have hne : (sortByKey m.items).Pairwise (fun p q => p.1 ≠ q.1) := by
    have h1 := sortByKey_keysNodup hnd
    unfold KeysNodup at h1
    have h2 : ((sortByKey m.items).map Prod.fst).Pairwise (fun a b => a ≠ b) := h1
    rw [List.pairwise_map] at h2
    exact h2
  have hcomb := hle.and hne
  exact hcomb.imp (fun h => by
    rcases byteLe_iff_lt_or_eq.mp h.1 with h2 | h2
    · exact h2
    · exact absurd h2 h.2)

theorem writeSSTable_entries (es : List Entry) : (writeSSTable es).entries = es := rfl

theorem flushMemtable_noInj (st : DBState) :
    flushMemtable st noInj = Except.ok (flushedState st) := by
  simp [flushMemtable, noInj, flushedState, writeSSTable_entries]

theorem freshDB_wf (numLevels : Nat) (hnl : 0 < numLevels) :
    WF (freshDB numLevels) := by
  refine ⟨?_, ?_, rfl, ?_⟩
  · simp [freshDB, emptyMemtable, KeysNodup]
  · intro tables htab t ht
    simp only [freshDB] at htab
    have := List.eq_of_mem_replicate htab
    subst this
    simp at ht
  · simp [freshDB]
    omega

theorem flushedState_wf (st : DBState) (hwf : WF st) : WF (flushedState st) := by
  obtain ⟨hnd, hlev, hwc, hlen⟩ := hwf
  refine ⟨?_, ?_, rfl, ?_⟩
  · simp [flushedState, emptyMemtable, KeysNodup]
  · intro tables htab t ht
    simp only [flushedState] at htab
    rcases List.mem_or_eq_of_mem_set htab with h | h
    · exact hlev tables h t ht
    · subst h
      rcases List.mem_append.mp ht with h2 | h2
      · have hhead : st.levels.getD 0 [] ∈ st.levels := by
          rw [List.getD_eq_getElem st.levels [] hlen]
          exact List.getElem_mem _
        exact hlev _ hhead t h2
      · simp at h2
        subst h2
        exact memIterator_esSorted st.memtable hnd
  · simp [flushedState]
    omega

theorem dbGet_flush (st : DBState) (hwf : WF st) (k : Bytes) :
    dbGet (flushedState st) k = dbGet st k := by
  obtain ⟨hnd, hlev, hwc, hlen⟩ := hwf
  obtain ⟨L0, rest, hLrest⟩ : ∃ L0 rest, st.levels = L0 :: rest := by
    match h : st.levels with
    | [] => rw [h] at hlen; simp at hlen
    | L0 :: rest => exact ⟨L0, rest, rfl⟩
  have hset : st.levels.set 0
      (st.levels.getD 0 [] ++ [Table.mk st.nextSSTNumber (memIterator st.memtable)]) =
      (L0 ++ [Table.mk st.nextSSTNumber (memIterator st.memtable)]) :: rest := by
    rw [hLrest]
    rfl
  have hmemGetEmpty : memGet emptyMemtable k = none := rfl
  have hrev : (L0 ++ [Table.mk st.nextSSTNumber (memIterator st.memtable)]).reverse =
      Table.mk st.nextSSTNumber (memIterator st.memtable) :: L0.reverse := by
    simp
  have hT : tableGet (memIterator st.memtable) k =
      (match lookupEntry (memIterator st.memtable) k with
       | none => TGet.notFound
       | some e => TGet.found e) :=
    tableGet_lookup _ k (memIterator_esSorted st.memtable hnd)
  rw [memIterator_memGet st.memtable hnd k] at hT
  show (match memGet emptyMemtable k with
    | some e => if e.etype = typeDelete then GetRes.notFound else GetRes.found e.value
    | none => scanLevels k (flushedState st).levels 0) = dbGet st k
  rw [hmemGetEmpty]
  simp only [flushedState]
  rw [hset]
  show (match scanTables k
      ((L0 ++ [Table.mk st.nextSSTNumber (memIterator st.memtable)]).reverse) with
    | some res => res
    | none => scanLevels k rest 1) = dbGet st k
  rw [hrev]
  cases hmg : memGet st.memtable k with
  | some e =>
    rw [hmg] at hT
    show (match scanTables k (Table.mk st.nextSSTNumber (memIterator st.memtable)
        :: L0.reverse) with
      | some res => res
      | none => scanLevels k rest 1) = dbGet st k
    rw [scanTables, hT]
    simp only
    rw [dbGet, hmg]
  | none =>
    rw [hmg] at hT
    rw [scanTables, hT]
    simp only
    rw [dbGet, hmg]
    simp only
    rw [hLrest]
    rfl

theorem assignSeqs_singleton (base : Nat) (op : WriteOp) :
    assignSeqs base [op] = [opEntry ((base + 1) % U32) op] := by
  simp [assignSeqs, List.mapIdx]
  rfl

theorem walWriteEntry_ok (st : DBState) (e : Entry) (rest : List Entry)
    (hwc : st.walClosed = false) :
    walWriteEntry st (e :: rest) noInj =
      Except.ok { st with walEntries := st.walEntries ++ (e :: rest) } := by
  rw [walWriteEntry, if_neg (by simp), hwc]
  rfl

/-- One accepted client write through the group-commit path: the batch
succeeds, the invariant is preserved, and the written key now reads as
just written while every other key reads as before. -/
theorem applyOp_step (st : DBState) (op : WriteOp) (threshold : Nat)
    (hwf : WF st) (hk : opKey op ≠ []) :
    WF (applyOp st op threshold noInj).1 ∧
    (applyOp st op threshold noInj).2 = none ∧
    ∀ k, dbGet (applyOp st op threshold noInj).1 k =
      if opKey op = k then opWriteRes op
      else dbGet st k := by
  rw [applyOp, if_neg hk]
  have hflush : (if threshold ≤ memLen st.memtable
      then flushMemtable st noInj else Except.ok st) =
      Except.ok (if threshold ≤ memLen st.memtable then flushedState st else st) := by
    by_cases h : threshold ≤ memLen st.memtable
    · rw [if_pos h, if_pos h, flushMemtable_noInj]
    · rw [if_neg h, if_neg h]
  set st1 := if threshold ≤ memLen st.memtable then flushedState st else st with hst1
  have hwf1 : WF st1 := by
    rw [hst1]
    by_cases h : threshold ≤ memLen st.memtable
    · rw [if_pos h]
      exact flushedState_wf st hwf
    · rw [if_neg h]
      exact hwf
  have hget1 : ∀ k, dbGet st1 k = dbGet st k := by
    intro k
    rw [hst1]
    by_cases h : threshold ≤ memLen st.memtable
    · rw [if_pos h]
      exact dbGet_flush st hwf k
    · rw [if_neg h]
  rw [processBatch, hflush]
  simp only
  rw [assignSeqs_singleton]
  obtain ⟨hnd1, hlev1, hwc1, hlen1⟩ := hwf1
  rw [walWriteEntry_ok _ _ _ (show ({ st1 with
    nextSeq := (st1.nextSeq + [op].length) % U32 } : DBState).walClosed = false from hwc1)]
  simp only
  refine ⟨⟨?_, ?_, ?_, ?_⟩, by trivial, ?_⟩
  · show KeysNodup (applyBatchToMemtable st1.memtable [op]).items
    cases op with
    | put k2 v2 => exact upsert_keysNodup hnd1
    | delete k2 => exact upsert_keysNodup hnd1
  · show ∀ tables ∈ st1.levels, ∀ t ∈ tables, EsSorted t.entries
    exact hlev1
  · show st1.walClosed = false
    exact hwc1
  · show 0 < st1.levels.length
    exact hlen1
  · intro k
    by_cases hkk : opKey op = k
    · rw [if_pos hkk]
      cases op with
      | put k2 v2 =>
        have hkk2 : k2 = k := hkk
        show dbGet _ k = opWriteRes (WriteOp.put k2 v2)
        rw [show opWriteRes (WriteOp.put k2 v2) = GetRes.found v2 from rfl]
        rw [dbGet]
        have hmg : memGet (applyBatchToMemtable st1.memtable [WriteOp.put k2 v2]) k =
            some ⟨typePut, st1.memtable.next + 1, k, v2⟩ := by
          show memGet (memPut st1.memtable k2 v2) k = _
          unfold memGet memPut
          simp only
          rw [hkk2, alookup_upsert_same]
          rfl
        rw [hmg]
        simp [typePut, typeDelete]
      | delete k2 =>
        have hkk2 : k2 = k := hkk
        show dbGet _ k = opWriteRes (WriteOp.delete k2)
        rw [show opWriteRes (WriteOp.delete k2) = GetRes.notFound from rfl]
        rw [dbGet]
        have hmg : memGet (applyBatchToMemtable st1.memtable [WriteOp.delete k2]) k =
            some ⟨typeDelete, st1.memtable.next + 1, k, []⟩ := by
          show memGet (memDelete st1.memtable k2) k = _
          unfold memGet memDelete
          simp only
          rw [hkk2, alookup_upsert_same]
          rfl
        rw [hmg]
        simp [typePut, typeDelete]
    · rw [if_neg hkk]
      rw [← hget1 k]
      have hmg : memGet (applyBatchToMemtable st1.memtable [op]) k =
          memGet st1.memtable k := by
        cases op with
        | put k2 v2 =>
          simp only [opKey] at hkk
          show memGet (memPut st1.memtable k2 v2) k = _
          unfold memGet memPut
          simp only
          rw [alookup_upsert_other (fun h => hkk h.symm)]
        | delete k2 =>
          simp only [opKey] at hkk
          show memGet (memDelete st1.memtable k2) k = _
          unfold memGet memDelete
          simp only
          rw [alookup_upsert_other (fun h => hkk h.symm)]
      rw [dbGet, dbGet, hmg]

theorem scanLevels_replicate_empty (k : Bytes) (n lvl : Nat) :
    scanLevels k (List.replicate n []) lvl = GetRes.notFound := by
  induction n generalizing lvl with
  | zero => rfl
  | succ n ih =>
    rw [List.replicate_succ, scanLevels]
    have hempty : scanTables k (if lvl = 0 then List.reverse [] else []) = none := by
      by_cases h : lvl = 0 <;> simp [h, scanTables]
    rw [hempty]
    exact ih (lvl + 1)

theorem dbGet_fresh (numLevels : Nat) (k : Bytes) :
    dbGet (freshDB numLevels) k = GetRes.notFound := by
  rw [dbGet]
  have : memGet (freshDB numLevels).memtable k = none := rfl
  rw [this]
  exact scanLevels_replicate_empty k numLevels 0

/-- The write-path induction: starting from a well-formed state whose
reads realise a latest-write view g, applying accepted writes keeps the
state well-formed and advances the view by the request fold. -/
theorem applyOps_correct (threshold : Nat) :
    ∀ (W : List WriteOp) (st : DBState) (g : Bytes → Option (Option Bytes)),
    WF st → (∀ k, dbGet st k = specGet (g k)) → (∀ op ∈ W, opKey op ≠ []) →
    WF (applyOps st W threshold) ∧
    ∀ k, dbGet (applyOps st W threshold) k =
      specGet (W.foldl (specFoldK k) (g k)) := by
  intro W
  induction W with
  | nil =>
    intro st g hwf hview _
    exact ⟨hwf, fun k => hview k⟩
  | cons op rest ih =>
    intro st g hwf hview hkeys
    have hk : opKey op ≠ [] := hkeys op (List.mem_cons_self _ _)
    obtain ⟨hwf1, _, hget1⟩ := applyOp_step st op threshold hwf hk
    have hview1 : ∀ k, dbGet (applyOp st op threshold noInj).1 k =
        specGet (specFoldK k (g k) op) := by
      intro k
      rw [hget1 k]
      by_cases hkk : opKey op = k
      · rw [if_pos hkk]
        cases op with
        | put k2 v2 =>
          have : k2 = k := hkk
          simp [specFoldK, opWriteRes, specGet, this]
        | delete k2 =>
          have : k2 = k := hkk
          simp [specFoldK, opWriteRes, specGet, this]
      · rw [if_neg hkk]
        cases op with
        | put k2 v2 =>
          have : k2 ≠ k := hkk
          simp only [specFoldK, if_neg this]
          exact hview k
        | delete k2 =>
          have : k2 ≠ k := hkk
          simp only [specFoldK, if_neg this]
          exact hview k
    have := ih (applyOp st op threshold noInj).1 (fun k => specFoldK k (g k) op)
      hwf1 hview1 (fun op2 h2 => hkeys op2 (List.mem_cons_of_mem _ h2))
    exact this

/-- C1.  Round-trip: for any sequence of accepted writes applied to a
fresh DB (flushes included, any threshold), a key whose latest write is
Put(k,v) reads back v; a key whose latest write is Delete, or which never
appears, reads NotFound. -/
theorem claim_C1 (W : List WriteOp) (threshold numLevels : Nat) (k : Bytes)
    (hnl : 0 < numLevels) (hkeys : ∀ op ∈ W, opKey op ≠ []) :
    (∀ v, specOf W k = some (some v) →
      dbGet (applyOps (freshDB numLevels) W threshold) k = GetRes.found v) ∧
    (specOf W k = some none →
      dbGet (applyOps (freshDB numLevels) W threshold) k = GetRes.notFound) ∧
    (specOf W k = none →
      dbGet (applyOps (freshDB numLevels) W threshold) k = GetRes.notFound) := by
  have hmain := (applyOps_correct threshold W (freshDB numLevels) (fun _ => none)
    (freshDB_wf numLevels hnl)
    (fun k2 => by rw [dbGet_fresh]; rfl) hkeys).2 k
  have hspec : (W.foldl (specFoldK k) none) = specOf W k := rfl
  rw [hspec] at hmain
  refine ⟨?_, ?_, ?_⟩
  · intro v hv
    rw [hmain, hv]
    rfl
  · intro hv
    rw [hmain, hv]
    rfl
  · intro hv
    rw [hmain, hv]
    rfl

/-- Witness for C1 at a concrete run spanning a flush. -/
theorem claim_C1_witness :
    dbGet (applyOps (freshDB 4) c1W 1) [2] = GetRes.found [7] ∧
    dbGet (applyOps (freshDB 4) c1W 1) [1] = GetRes.notFound :=
  ⟨(claim_C1 c1W 1 4 [2] (by decide) (by decide)).1 [7] (by decide),
   (claim_C1 c1W 1 4 [1] (by decide) (by decide)).2.1 (by decide)⟩

/-- C4.  L0 newest-wins: with L0 holding an older table A and a newer
table B (appended later, larger file number), both containing key k, and
the memtable missing k, DB.Get consults L0 newest-first and answers from
B's record alone: B's value, or NotFound when B holds a tombstone. -/
theorem claim_C4 (st : DBState) (A B : Table) (rest : List (List Table))
    (k : Bytes) (e eA : Entry)
    (hlev : st.levels = [A, B] :: rest)
    (hfile : A.fileNo < B.fileNo)
    (hmem : memGet st.memtable k = none)
    (hBsorted : EsSorted B.entries)
    (hBk : lookupEntry B.entries k = some e)
    (hAk : lookupEntry A.entries k = some eA) :
    dbGet st k =
      (if e.etype = typeDelete then GetRes.notFound else GetRes.found e.value) := by
  rw [dbGet, hmem]
  simp only
  rw [hlev, scanLevels, if_pos rfl]
  rw [show ([A, B] : List Table).reverse = [B, A] from rfl]
  rw [scanTables]
  have hTB := tableGet_lookup B.entries k hBsorted
  rw [hBk] at hTB
  rw [hTB]

/-- Witness for C4: the newer table's value wins. -/
theorem claim_C4_witness : dbGet c4st [1] = GetRes.found [7] := by
  have h := claim_C4 c4st c4A c4B [] [1] ⟨typePut, 1, [1], [7]⟩ ⟨typePut, 1, [1], [9]⟩
    rfl (by decide) rfl
    (by intro i j hij hj; simp [c4B] at hj; omega)
    (by decide) (by decide)
  simpa using h

theorem memIterator_keys {m : Memtable} {e : Entry} (he : e ∈ memIterator m) :
    ∃ p ∈ m.items, p.1 = e.key := by
  unfold memIterator at he
  rw [List.mem_map] at he
  obtain ⟨p, hp, hpe⟩ := he
  refine ⟨p, (sortByKey_perm m.items).mem_iff.mp hp, ?_⟩
  rw [← hpe]

theorem flushedState_noEmpty (st : DBState) (hne : NoEmptyKeys st) :
    NoEmptyKeys (flushedState st) := by
  obtain ⟨hm, hl⟩ := hne
  constructor
  · intro p hp
    simp [flushedState, emptyMemtable] at hp
  · intro tables htab t ht e he
    simp only [flushedState] at htab
    rcases List.mem_or_eq_of_mem_set htab with h | h
    · exact hl tables h t ht e he
    · subst h
      rcases List.mem_append.mp ht with h2 | h2
      · by_cases hlen : 0 < st.levels.length
        · have hhead : st.levels.getD 0 [] ∈ st.levels := by
            rw [List.getD_eq_getElem st.levels [] hlen]
            exact List.getElem_mem _
          exact hl _ hhead t h2 e he
        · have hnil : st.levels = [] := by
            cases h3 : st.levels with
            | nil => rfl
            | cons a b => rw [h3] at hlen; simp at hlen
          rw [hnil] at h2
          simp at h2
      · simp at h2
        subst h2
        simp only at he
        obtain ⟨p, hp, hpk⟩ := memIterator_keys he
        rw [← hpk]
        exact hm p hp

theorem mem_upsert {p : Bytes × MemVal} {k : Bytes} {v : MemVal}
    {l : List (Bytes × MemVal)} (hp : p ∈ upsert k v l) :
    p = (k, v) ∨ p ∈ l := by
  induction l with
  | nil =>
    simp [upsert] at hp
    exact Or.inl hp
  | cons q t ih =>
    obtain ⟨k', v'⟩ := q
    by_cases hk : k' = k
    · subst hk
      rw [upsert, if_pos rfl] at hp
      rcases List.mem_cons.mp hp with h | h
      · exact Or.inl h
      · exact Or.inr (List.mem_cons_of_mem _ h)
    · rw [upsert, if_neg hk] at hp
      rcases List.mem_cons.mp hp with h | h
      · exact Or.inr (by rw [h]; exact List.mem_cons_self _ _)
      · rcases ih h with h2 | h2
        · exact Or.inl h2
        · exact Or.inr (List.mem_cons_of_mem _ h2)

/-- Full characterization of the post state of one accepted write. -/
theorem applyOp_state (st : DBState) (op : WriteOp) (threshold : Nat)
    (hwf : WF st) (hk : opKey op ≠ []) :
    (applyOp st op threshold noInj).1 =
      (let st1 := if threshold ≤ memLen st.memtable then flushedState st else st
       { st1 with
         nextSeq := (st1.nextSeq + 1) % U32
         walEntries := st1.walEntries ++ [opEntry ((st1.nextSeq + 1) % U32) op]
         memtable := applyBatchToMemtable st1.memtable [op] }) := by
  rw [applyOp, if_neg hk]
  have hflush : (if threshold ≤ memLen st.memtable
      then flushMemtable st noInj else Except.ok st) =
      Except.ok (if threshold ≤ memLen st.memtable then flushedState st else st) := by
    by_cases h : threshold ≤ memLen st.memtable
    · rw [if_pos h, if_pos h, flushMemtable_noInj]
    · rw [if_neg h, if_neg h]
  set st1 := if threshold ≤ memLen st.memtable then flushedState st else st with hst1
  have hwc1 : st1.walClosed = false := by
    rw [hst1]
    by_cases h : threshold ≤ memLen st.memtable
    · rw [if_pos h]
      rfl
    · rw [if_neg h]
      exact hwf.2.2.1
  rw [processBatch, hflush]
  simp only
  rw [assignSeqs_singleton]
  rw [walWriteEntry_ok _ _ _ (show ({ st1 with
    nextSeq := (st1.nextSeq + [op].length) % U32 } : DBState).walClosed = false from hwc1)]
  rfl

theorem applyOp_preserves (st : DBState) (op : WriteOp) (threshold : Nat)
    (hwf : WF st) (hne : NoEmptyKeys st) :
    WF (applyOp st op threshold noInj).1 ∧
    NoEmptyKeys (applyOp st op threshold noInj).1 := by
  by_cases hk : opKey op = []
  · rw [applyOp, if_pos hk]
    exact ⟨hwf, hne⟩
  · refine ⟨(applyOp_step st op threshold hwf hk).1, ?_⟩
    rw [applyOp_state st op threshold hwf hk]
    simp only
    set st1 := if threshold ≤ memLen st.memtable then flushedState st else st with hst1
    have hne1 : NoEmptyKeys st1 := by
      rw [hst1]
      by_cases h : threshold ≤ memLen st.memtable
      · rw [if_pos h]
        exact flushedState_noEmpty st hne
      · rw [if_neg h]
        exact hne
    constructor
    · intro p hp
      have hmem : p ∈ (applyBatchToMemtable st1.memtable [op]).items := hp
      have hup : p = (opKey op, (match op with
          | WriteOp.put _ v => MemVal.mk typePut (st1.memtable.next + 1) v
          | WriteOp.delete _ => MemVal.mk typeDelete (st1.memtable.next + 1) [])) ∨
          p ∈ st1.memtable.items := by
        cases op with
        | put k2 v2 => exact mem_upsert hmem
        | delete k2 => exact mem_upsert hmem
      rcases hup with h | h
      · rw [h]
        exact hk
      · exact hne1.1 p h
    · intro tables htab t ht e he
      exact hne1.2 tables htab t ht e he

theorem scanTables_none (key : Bytes) (ts : List Table)
    (hall : ∀ t ∈ ts, tableGet t.entries key = TGet.notFound) :
    scanTables key ts = none := by
  induction ts with
  | nil => rfl
  | cons t rest ih =>
    rw [scanTables, hall t (List.mem_cons_self _ _)]
    exact ih (fun t2 h2 => hall t2 (List.mem_cons_of_mem _ h2))

theorem scanLevels_none (key : Bytes) :
    ∀ (levels : List (List Table)) (lvl : Nat),
    (∀ tables ∈ levels, ∀ t ∈ tables, tableGet t.entries key = TGet.notFound) →
    scanLevels key levels lvl = GetRes.notFound := by
  intro levels
  induction levels with
  | nil => intro lvl _; rfl
  | cons tables rest ih =>
    intro lvl hall
    rw [scanLevels]
    have hst : scanTables key (if lvl = 0 then tables.reverse else tables) = none := by
      apply scanTables_none
      intro t ht
      have hmem : t ∈ tables := by
        by_cases h : lvl = 0
        · rw [if_pos h] at ht
          exact List.mem_reverse.mp ht
        · rw [if_neg h] at ht
          exact ht
      exact hall tables (List.mem_cons_self _ _) t hmem
    rw [hst]
    exact ih (lvl + 1) (fun tb h2 => hall tb (List.mem_cons_of_mem _ h2))

theorem dbGet_empty_key (st : DBState) (hwf : WF st) (hne : NoEmptyKeys st) :
    dbGet st [] = GetRes.notFound := by
  rw [dbGet]
  have hmg : memGet st.memtable [] = none := by
    unfold memGet
    rw [show alookup [] st.memtable.items = none from ?_]
    · rfl
    · rw [alookup_none_iff]
      intro hc
      rw [List.mem_map] at hc
      obtain ⟨p, hp, hpk⟩ := hc
      exact hne.1 p hp hpk
  rw [hmg]
  apply scanLevels_none
  intro tables htab t ht
  have hsorted : EsSorted t.entries := hwf.2.1 tables htab t ht
  rw [tableGet_lookup t.entries [] hsorted]
  rw [show lookupEntry t.entries [] = none from ?_]
  · rw [lookupEntry_none_iff]
    intro e hme
    exact hne.2 tables htab t ht e hme

theorem applyOps_preserves (threshold : Nat) :
    ∀ (W : List WriteOp) (st : DBState), WF st → NoEmptyKeys st →
    WF (applyOps st W threshold) ∧ NoEmptyKeys (applyOps st W threshold) := by
  intro W
  induction W with
  | nil => intro st hwf hne; exact ⟨hwf, hne⟩
  | cons op rest ih =>
    intro st hwf hne
    obtain ⟨hwf1, hne1⟩ := applyOp_preserves st op threshold hwf hne
    exact ih (applyOp st op threshold noInj).1 hwf1 hne1

theorem freshDB_noEmpty (numLevels : Nat) : NoEmptyKeys (freshDB numLevels) := by
  constructor
  · intro p hp
    simp [freshDB, emptyMemtable] at hp
  · intro tables htab t ht
    simp only [freshDB] at htab
    have := List.eq_of_mem_replicate htab
    subst this
    simp at ht

/-- C10.  On every DB state reachable through the public API (empty-key
writes are rejected without effect, so no store ever holds an empty key),
DB.Get on the empty key performs no key validation and returns NotFound,
never a validation or corruption error. -/
theorem claim_C10 (W : List WriteOp) (threshold numLevels : Nat)
    (hnl : 0 < numLevels) :
    dbGet (applyOps (freshDB numLevels) W threshold) [] = GetRes.notFound := by
  obtain ⟨hwf, hne⟩ := applyOps_preserves threshold W (freshDB numLevels)
    (freshDB_wf numLevels hnl) (freshDB_noEmpty numLevels)
  exact dbGet_empty_key _ hwf hne

/-- Witness for C10: a run that includes a rejected empty-key write and a
flush. -/
theorem claim_C10_witness :
    dbGet (applyOps (freshDB 4)
      [WriteOp.put [1] [5], WriteOp.put [] [6], WriteOp.delete [1],
       WriteOp.put [2] [7]] 1) [] = GetRes.notFound :=
  claim_C10 [WriteOp.put [1] [5], WriteOp.put [] [6], WriteOp.delete [1],
    WriteOp.put [2] [7]] 1 4 (by decide)

theorem allWalSeqs_flush (st : DBState) :
    allWalSeqs (flushedState st) = allWalSeqs st := by
  unfold allWalSeqs flushedState
  simp

theorem applyOp_walSeqs (st : DBState) (op : WriteOp) (threshold : Nat)
    (hwf : WF st) (hk : opKey op ≠ []) (hlt : st.nextSeq + 1 < U32) :
    allWalSeqs (applyOp st op threshold noInj).1 =
      allWalSeqs st ++ [st.nextSeq + 1] ∧
    (applyOp st op threshold noInj).1.nextSeq = st.nextSeq + 1 := by
  rw [applyOp_state st op threshold hwf hk]
  simp only
  set st1 := if threshold ≤ memLen st.memtable then flushedState st else st with hst1
  have hseq1 : st1.nextSeq = st.nextSeq := by
    rw [hst1]
    by_cases h : threshold ≤ memLen st.memtable
    · rw [if_pos h]
      rfl
    · rw [if_neg h]
  have hw1 : allWalSeqs st1 = allWalSeqs st := by
    rw [hst1]
    by_cases h : threshold ≤ memLen st.memtable
    · rw [if_pos h]
      exact allWalSeqs_flush st
    · rw [if_neg h]
  have hmod : (st1.nextSeq + 1) % U32 = st.nextSeq + 1 := by
    rw [hseq1]
    exact Nat.mod_eq_of_lt hlt
  constructor
  · show ((st1.walFiles.join ++ (st1.walEntries ++
      [opEntry ((st1.nextSeq + 1) % U32) op])).map
      Entry.seq) = allWalSeqs st ++ [st.nextSeq + 1]
    rw [← List.append_assoc, List.map_append]
    rw [show ((st1.walFiles.join ++ st1.walEntries).map Entry.seq) = allWalSeqs st from hw1]
    rw [hmod]
    congr 1
    cases op <;> rfl
  · show (st1.nextSeq + 1) % U32 = st.nextSeq + 1
    exact hmod

theorem applyOps_walInv (threshold : Nat) :
    ∀ (W : List WriteOp) (st : DBState), WF st → WalInv st →
    st.nextSeq + W.length < U32 →
    WalInv (applyOps st W threshold) := by
  intro W
  induction W with
  | nil => intro st _ hinv _; exact hinv
  | cons op rest ih =>
    intro st hwf hinv hlen
    simp only [List.length_cons] at hlen
    by_cases hk : opKey op = []
    · have hsame : (applyOp st op threshold noInj).1 = st := by
        rw [applyOp, if_pos hk]
      show WalInv (applyOps (applyOp st op threshold noInj).1 rest threshold)
      rw [hsame]
      exact ih st hwf hinv (by omega)
    · have hlt : st.nextSeq + 1 < U32 := by omega
      obtain ⟨hws, hns⟩ := applyOp_walSeqs st op threshold hwf hk hlt
      have hwf1 : WF (applyOp st op threshold noInj).1 :=
        (applyOp_step st op threshold hwf hk).1
      apply ih _ hwf1
      · constructor
        · rw [hws]
          unfold StrictIncr
          rw [List.pairwise_append]
          refine ⟨hinv.1, by simp, ?_⟩
          intro a ha b hb
          rw [List.mem_singleton] at hb
          subst hb
          have := hinv.2 a ha
          omega
        · intro s hs
          rw [hws] at hs
          rw [hns]
          rcases List.mem_append.mp hs with h | h
          · have := hinv.2 s h
            omega
          · rw [List.mem_singleton] at h
            omega
      · rw [hns]
        omega

/-- C2 (amended).  The single process-wide counter orders the
WAL-persisted entries: over any run of fewer than 2^32 writes on a fresh
DB (DB.nextSeq and Entry.Seq are uint32, so the counter wraps after 2^32
increments), the seq values of all WAL files (rotated ones in rotation
order, then the current one) are strictly increasing in commit order.
Entries flushed to SSTables do not carry this counter (see the
counterexample): the memtable restamps them with its internal
per-memtable counter. -/
theorem claim_C2 (W : List WriteOp) (threshold numLevels : Nat)
    (hnl : 0 < numLevels) (hW : W.length < U32) :
    StrictIncr (allWalSeqs (applyOps (freshDB numLevels) W threshold)) := by
  refine (applyOps_walInv threshold W (freshDB numLevels)
    (freshDB_wf numLevels hnl) ⟨?_, ?_⟩ ?_).1
  · show StrictIncr []
    exact List.Pairwise.nil
  · intro s hs
    simp [allWalSeqs, freshDB] at hs
  · show 0 + W.length < U32
    omega

/-- Witness for C2 at a concrete run with two flushes. -/
theorem claim_C2_witness :
    StrictIncr (allWalSeqs (applyOps (freshDB 1)
      [WriteOp.put [1] [9], WriteOp.put [2] [9], WriteOp.put [3] [9]] 1)) :=
  claim_C2 [WriteOp.put [1] [9], WriteOp.put [2] [9], WriteOp.put [3] [9]] 1 1
    (by decide) (by decide)

/-- Counterexample to C2 as stated: after three puts at flush threshold 1,
the WAL files show the commit order (key 1 committed with seq 1, key 2
with seq 2, key 3 pending with seq 3), yet the two flushed SSTables carry
seq 1 and seq 1: the entry committed second was persisted to its SSTable
with a seq not greater than that of the entry committed first, because the
memtable restamps entries with its internal counter, which restarts for
every new memtable. -/
theorem claim_C2_counterexample :
    (applyOps (freshDB 1)
      [WriteOp.put [1] [9], WriteOp.put [2] [9], WriteOp.put [3] [9]] 1).walFiles.map
        (List.map Entry.seq) = [[1], [2]] ∧
    (applyOps (freshDB 1)
      [WriteOp.put [1] [9], WriteOp.put [2] [9], WriteOp.put [3] [9]] 1).walEntries.map
        Entry.seq = [3] ∧
    ((applyOps (freshDB 1)
      [WriteOp.put [1] [9], WriteOp.put [2] [9], WriteOp.put [3] [9]] 1).levels.getD 0 []).map
        (fun t => t.entries.map Entry.seq) = [[1], [1]] ∧
    ¬ (1 : Nat) < 1 := by
  decide

/-! ## Failure handling in the flush and WAL write paths (C3, C6) -/
/-- A flush whose SSTable creation/write fails: the error propagates with
the state mutated so far, in which the old WAL handle is already closed
(flushMemtable closes it in step 1 before any fallible step). -/
theorem flushMemtable_sstErr (st : DBState) (e : DbErr) :
    flushMemtable st ⟨none, some e, none⟩ =
      Except.error ({ st with walClosed := true }, e) := rfl

/-- A flush with no injected flush-stage failures succeeds even when the
later WAL append is doomed to fail. -/
theorem flushMemtable_ok_inj (st : DBState) (w : Option DbErr) :
    flushMemtable st ⟨none, none, w⟩ = Except.ok (flushedState st) := by
  simp [flushMemtable, flushedState, writeSSTable_entries]

/-- C3 (amended).  When the SSTable creation or write inside the flush
fails, the batch that triggered the flush fails with that error, and the
memtable, WAL file contents, and sequence counter are all unchanged, so
reads behave exactly as before; but the old WAL handle has already been
closed by step 1 of flushMemtable, so the WAL no longer accepts appends:
any subsequent append to it fails with the wal-closed error (until a later
successful flush installs a fresh WAL). -/
theorem claim_C3 (st : DBState) (batch : List WriteOp) (threshold : Nat)
    (e : DbErr) (hth : threshold ≤ memLen st.memtable) :
    processBatch st batch threshold ⟨none, some e, none⟩ =
      ({ st with walClosed := true }, some e) ∧
    ({ st with walClosed := true } : DBState).memtable = st.memtable ∧
    ({ st with walClosed := true } : DBState).walEntries = st.walEntries ∧
    ({ st with walClosed := true } : DBState).nextSeq = st.nextSeq ∧
    (∀ k, dbGet { st with walClosed := true } k = dbGet st k) ∧
    (∀ ent rest inj2, walWriteEntry { st with walClosed := true }
      (ent :: rest) inj2 = Except.error DbErr.walClosed) := by
  refine ⟨?_, rfl, rfl, rfl, fun k => rfl, fun ent rest inj2 => ?_⟩
  · rw [processBatch, if_pos hth, flushMemtable_sstErr]
  · rw [walWriteEntry, if_neg (by simp)]
    rfl

theorem stp1_wf : WF stp1 :=
  (applyOp_step (freshDB 1) (WriteOp.put [1] [5]) 1 (freshDB_wf 1 (by decide))
    (by decide)).1

/-- Witness for C3 at the concrete over-threshold state. -/
theorem claim_C3_witness :
    processBatch stp1 [WriteOp.put [2] [6]] 1 ⟨none, some (DbErr.injected 7), none⟩ =
      ({ stp1 with walClosed := true }, some (DbErr.injected 7)) ∧
    walWriteEntry { stp1 with walClosed := true } [⟨typePut, 2, [2], [6]⟩] noInj =
      Except.error DbErr.walClosed := by
  have h := claim_C3 stp1 [WriteOp.put [2] [6]] 1 (DbErr.injected 7) (by decide)
  exact ⟨h.1, h.2.2.2.2.2 ⟨typePut, 2, [2], [6]⟩ [] noInj⟩

/-- Counterexample to C3 as stated: after the failed flush the old WAL
handle is closed, so the WAL does not "still accept appends": an append
through the handle fails with the wal-closed error instead of behaving as
before the flush. -/
theorem claim_C3_counterexample :
    (processBatch stp1 [WriteOp.put [2] [6]] 1
      ⟨none, some (DbErr.injected 0), none⟩).2 = some (DbErr.injected 0) ∧
    (processBatch stp1 [WriteOp.put [2] [6]] 1
      ⟨none, some (DbErr.injected 0), none⟩).1.memtable = stp1.memtable ∧
    walWriteEntry (processBatch stp1 [WriteOp.put [2] [6]] 1
      ⟨none, some (DbErr.injected 0), none⟩).1 [⟨typePut, 2, [2], [6]⟩] noInj =
      Except.error DbErr.walClosed := by
  decide

theorem assignSeqs_ne_nil {base : Nat} {batch : List WriteOp} (hb : batch ≠ []) :
    assignSeqs base batch ≠ [] := by
  intro hc
  apply hb
  have : (assignSeqs base batch).length = batch.length := by
    simp [assignSeqs]
  rw [hc] at this
  simp at this
  exact List.length_eq_zero.mp this.symm

/-- C6 (amended).  When the WAL batch append fails, the whole batch fails:
the single result delivered to every requester in the batch is that error,
and none of the batch's entries reaches the memtable — the memtable equals
its state from just before the WAL write.  That state is the pre-call
memtable when the call triggered no flush; if the same call first ran a
successful flush, it is the fresh empty memtable the flush installed. -/
theorem claim_C6 (st : DBState) (batch : List WriteOp) (threshold : Nat)
    (e : DbErr) (hwf : WF st) (hb : batch ≠ []) :
    (processBatch st batch threshold ⟨none, none, some e⟩).2 = some e ∧
    (processBatch st batch threshold ⟨none, none, some e⟩).1.memtable =
      (if threshold ≤ memLen st.memtable then flushedState st else st).memtable ∧
    (memLen st.memtable < threshold →
      (processBatch st batch threshold ⟨none, none, some e⟩).1.memtable =
        st.memtable) := by
  have hflush : (if threshold ≤ memLen st.memtable
      then flushMemtable st ⟨none, none, some e⟩ else Except.ok st) =
      Except.ok (if threshold ≤ memLen st.memtable then flushedState st else st) := by
    by_cases h : threshold ≤ memLen st.memtable
    · rw [if_pos h, if_pos h, flushMemtable_ok_inj]
    · rw [if_neg h, if_neg h]
  set st1 := if threshold ≤ memLen st.memtable then flushedState st else st with hst1
  have hwc1 : st1.walClosed = false := by
    rw [hst1]
    by_cases h : threshold ≤ memLen st.memtable
    · rw [if_pos h]
      rfl
    · rw [if_neg h]
      exact hwf.2.2.1
  have hwerr : walWriteEntry { st1 with nextSeq := (st1.nextSeq + batch.length) % U32 }
      (assignSeqs st1.nextSeq batch) ⟨none, none, some e⟩ = Except.error e := by
    rw [walWriteEntry, if_neg (assignSeqs_ne_nil hb)]
    rw [show ({ st1 with nextSeq := (st1.nextSeq + batch.length) % U32 } :
      DBState).walClosed = false from hwc1]
    rfl
  rw [processBatch, hflush]
  simp only
  rw [hwerr]
  refine ⟨rfl, rfl, ?_⟩
  intro hlt
  show st1.memtable = st.memtable
  rw [hst1, if_neg (by omega)]

/-- Witness for C6 at a concrete under-threshold state (no flush): the
memtable is exactly the pre-call one. -/
theorem claim_C6_witness :
    (processBatch stp1 [WriteOp.put [2] [6]] 9
      ⟨none, none, some (DbErr.injected 3)⟩).2 = some (DbErr.injected 3) ∧
    (processBatch stp1 [WriteOp.put [2] [6]] 9
      ⟨none, none, some (DbErr.injected 3)⟩).1.memtable = stp1.memtable := by
  have h := claim_C6 stp1 [WriteOp.put [2] [6]] 9 (DbErr.injected 3)
    stp1_wf (by decide)
  exact ⟨h.1, h.2.2 (by decide)⟩

/-- Counterexample to C6 as stated: when the batch that suffers the WAL
write failure also triggered a successful flush earlier in the same call,
the memtable after the failed call is the fresh empty one the flush
installed, not the pre-call memtable. -/
theorem claim_C6_counterexample :
    (processBatch stp1 [WriteOp.put [2] [6]] 1
      ⟨none, none, some (DbErr.injected 0)⟩).2 = some (DbErr.injected 0) ∧
    (processBatch stp1 [WriteOp.put [2] [6]] 1
      ⟨none, none, some (DbErr.injected 0)⟩).1.memtable ≠ stp1.memtable := by
  decide

/-! ## Claims on the SSTable writer and the index search (C7, C8) -/
theorem writeSSTable_smallest (es : List Entry) (hne : es ≠ []) :
    (writeSSTable es).smallestKey = some ((es.headD default).key) := by
  show (finishBlocks (writePass initWriteSt es)).smallestKey = _
  rw [finishBlocks_smallest, writePass_smallest_zero es initWriteSt rfl hne]

theorem chunk_head_key (es : List Entry) (i : Nat) (hi : i < (chunks es).length) :
    (((chunks es).getD i []).headD default).key =
      (es.getD (BLOCK_SIZE * i) default).key := by
  have h64 : BLOCK_SIZE * i < es.length := (chunksLenIff es i).mp hi
  have hlen : 0 < ((chunks es).getD i []).length := by
    rw [blk_length]
    have hbs : (0:Nat) < BLOCK_SIZE := by decide
    omega
  rw [headD_eq_getD_zero, blk_getD es i 0 hlen, Nat.add_zero]

/-- C7.  The writer closes a data block each time the accumulator reaches
BLOCK_SIZE = 64 entries, recording (block start offset, first key in the
block) in the index, and closes the final partial block identically: the
index equals the per-64-chunk specification index, with exactly one entry
per data block whose offset is the cumulative size of the preceding
blocks and whose key is the block's first key; the first index key is the
smallest input key; and, the filter being unimplemented, the footer has
filter offset equal to index offset. -/
theorem claim_C7 (es : List Entry) (hs : EsSorted es) (hne : es ≠ []) :
    (writeSSTable es).index = buildIndex 0 es ∧
    (writeSSTable es).index.length = (chunks es).length ∧
    (∀ i, i < (writeSSTable es).index.length →
      (writeSSTable es).index.getD i default =
        ⟨sizeSum (es.take (BLOCK_SIZE * i)),
         (((chunks es).getD i []).headD default).key⟩) ∧
    ((writeSSTable es).index.headD default).key = (es.headD default).key ∧
    (writeSSTable es).smallestKey = some ((es.headD default).key) ∧
    (∀ e ∈ es, byteLe ((es.headD default).key) e.key) ∧
    (writeSSTable es).footer.filterOffset = (writeSSTable es).footer.indexOffset := by
  have hidx := writeSSTable_index es
  refine ⟨hidx, ?_, ?_, ?_, writeSSTable_smallest es hne, ?_, rfl⟩
  · rw [hidx]
    exact biLength 0 es
  · intro i hi
    rw [hidx] at hi ⊢
    rw [biGetD 0 es i hi]
    rw [chunk_head_key es i (by rw [← biLength 0 es]; exact hi)]
    rw [Nat.zero_add]
  · rw [hidx]
    match es with
    | e :: rest =>
      rw [show buildIndex 0 (e :: rest) =
        ⟨0, e.key⟩ ::
          buildIndex (0 + sizeSum ((e :: rest).take BLOCK_SIZE))
            ((e :: rest).drop BLOCK_SIZE) from by rw [buildIndex]]
      rfl
  · intro e hme
    obtain ⟨p, hp, hpe⟩ := (mem_iff_getD es e).mp hme
    rw [headD_eq_getD_zero, ← hpe]
    rcases Nat.eq_zero_or_pos p with h0 | h0
    · subst h0
      exact byteLe_refl _
    · exact byteLe_of_lt (hs 0 p h0 hp)

theorem c7es_sorted : EsSorted c7es := by
  intro i j hij hj
  have hj2 : j < 2 := by simpa [c7es] using hj
  have hij01 : i = 0 ∧ j = 1 := by omega
  obtain ⟨hi0, hj1⟩ := hij01
  subst hi0
  subst hj1
  decide

/-- Witness for C7 at the concrete stream. -/
theorem claim_C7_witness :
    (writeSSTable c7es).index = buildIndex 0 c7es ∧
    ((writeSSTable c7es).index.headD default).key = (c7es.headD default).key ∧
    (writeSSTable c7es).footer.filterOffset = (writeSSTable c7es).footer.indexOffset := by
  have h := claim_C7 c7es c7es_sorted (by decide)
  exact ⟨h.1, h.2.2.2.1, h.2.2.2.2.2.2⟩

/-- C8.  FindBlockOffset returns none exactly when the index is empty or
every index key is greater than the search key; when it returns an
offset, that offset belongs to the greatest index entry whose key is at
most the search key. -/
theorem claim_C8 (entries : List IdxEntry) (key : Bytes) (hs : IdxSorted entries) :
    (findBlockOffset entries key = none ↔
      entries = [] ∨ ∀ en ∈ entries, byteLt key en.key) ∧
    (∀ off, findBlockOffset entries key = some off →
      ∃ i, i < entries.length ∧
        (entries.getD i default).blockOffset = off ∧
        byteLe (entries.getD i default).key key ∧
        ∀ j, j < entries.length → byteLe (entries.getD j default).key key →
          j ≤ i) := by
  constructor
  · constructor
    · intro h
      rcases fbo_none h with h1 | h1
      · exact Or.inl h1
      · right
        intro en hen
        obtain ⟨j, hj, hje⟩ := (mem_iff_getD entries en).mp hen
        rw [← hje]
        rcases Nat.eq_zero_or_pos j with h0 | h0
        · subst h0
          exact h1
        · exact byteLt_trans h1 (hs 0 j h0 hj)
    · intro h
      rcases h with h1 | h1
      · rw [findBlockOffset, if_pos h1]
      · by_cases he : entries = []
        · rw [findBlockOffset, if_pos he]
        · rw [findBlockOffset, if_neg he]
          have hlen : 0 < entries.length := List.length_pos.mpr he
          have hhead : entries.headD default ∈ entries := by
            rw [headD_eq_getD_zero, mem_iff_getD]
            exact ⟨0, hlen, rfl⟩
          rw [if_pos (h1 _ hhead)]
  · intro off hoff
    obtain ⟨i, hi, hioff, hile, higt⟩ := fbo_some hs hoff
    refine ⟨i, hi, hioff, hile, ?_⟩
    intro j hj hjle
    by_contra hc
    have hgt := higt j (by omega) hj
    exact byteLt_irrefl _ (byteLt_of_le_of_lt hjle hgt)

theorem c8idx_sorted : IdxSorted c8idx := by
  intro i j hij hj
  have hj2 : j < 2 := by simpa [c8idx] using hj
  have hij01 : i = 0 ∧ j = 1 := by omega
  obtain ⟨hi0, hj1⟩ := hij01
  subst hi0
  subst hj1
  decide

/-- Witness for C8: the greatest entry with key at most the search key. -/
theorem claim_C8_witness :
    ∃ i, i < c8idx.length ∧
      (c8idx.getD i default).blockOffset = 20 ∧
      byteLe (c8idx.getD i default).key [3] ∧
      ∀ j, j < c8idx.length → byteLe (c8idx.getD j default).key [3] → j ≤ i :=
  (claim_C8 c8idx [3] c8idx_sorted).2 20 (by
    have hloop : findLoop c8idx [3] 0 2 = 2 := by
      rw [findLoop]
      rw [dif_pos (by norm_num : (0:Nat) < 2)]
      simp only [show (0 + 2) / 2 = 1 from rfl]
      rw [if_pos (by decide)]
      rw [findLoop]
      rw [dif_neg (by norm_num)]
    rw [findBlockOffset, if_neg (by decide), if_neg (by decide)]
    rw [show c8idx.length = 2 from rfl, hloop]
    rfl)

theorem getD_set_self {α : Type} (l : List α) (i : Nat) (x d : α)
    (hi : i < l.length) : (l.set i x).getD i d = x := by
  induction l generalizing i with
  | nil => simp at hi
  | cons y t ih =>
    match i with
    | 0 => rfl
    | i + 1 =>
      rw [List.set_cons_succ, List.getD_cons_succ]
      exact ih i (by simpa using hi)

theorem getD_set_ne {α : Type} (l : List α) (i j : Nat) (x : α) (d : α)
    (hij : i ≠ j) : (l.set i x).getD j d = l.getD j d := by
  induction l generalizing i j with
  | nil => simp
  | cons y t ih =>
    match i, j with
    | 0, 0 => exact absurd rfl hij
    | 0, j + 1 => rfl
    | i + 1, 0 => rfl
    | i + 1, j + 1 =>
      rw [List.set_cons_succ, List.getD_cons_succ, List.getD_cons_succ]
      exact ih i j (fun h => hij (by rw [h]))

theorem getD_default_of_le {α : Type} (l : List α) (i : Nat) (d : α)
    (hi : l.length ≤ i) : l.getD i d = d := by
  induction l generalizing i with
  | nil => simp
  | cons y t ih =>
    match i with
    | 0 => simp at hi
    | i + 1 =>
      rw [List.getD_cons_succ]
      exact ih i (by simpa using hi)

theorem applyDeletes_untouched (dels : List (Nat × List Nat))
    (L : List (List FileMeta)) (lvl : Nat) (hnot : lvl ∉ dels.map Prod.fst) :
    (applyDeletes L dels).getD lvl [] = L.getD lvl [] := by
  induction dels generalizing L with
  | nil => rfl
  | cons d ds ih =>
    simp only [List.map_cons, List.mem_cons] at hnot
    push_neg at hnot
    show (applyDeletes (L.set d.1 _) ds).getD lvl [] = _
    rw [ih _ hnot.2]
    exact getD_set_ne L d.1 lvl _ _ (fun h => hnot.1 (by rw [h]))

theorem applyAdds_untouched (adds : List (Nat × List FileMeta))
    (L : List (List FileMeta)) (lvl : Nat) (hnot : lvl ∉ adds.map Prod.fst) :
    (applyAdds L adds).getD lvl [] = L.getD lvl [] := by
  induction adds generalizing L with
  | nil => rfl
  | cons a as ih =>
    simp only [List.map_cons, List.mem_cons] at hnot
    push_neg at hnot
    show (applyAdds (L.set a.1 _) as).getD lvl [] = _
    rw [ih _ hnot.2]
    exact getD_set_ne L a.1 lvl _ _ (fun h => hnot.1 (by rw [h]))

theorem applyDeletes_getD (dels : List (Nat × List Nat))
    (L : List (List FileMeta)) (lvl : Nat)
    (hnd : (dels.map Prod.fst).Nodup) :
    (applyDeletes L dels).getD lvl [] =
      (L.getD lvl []).filter
        (fun fm => decide (fm.fileNo ∉ delsFor dels lvl)) := by
  induction dels generalizing L with
  | nil =>
    show L.getD lvl [] = _
    rw [eq_comm, List.filter_eq_self]
    intro fm _
    simp [delsFor]
  | cons d ds ih =>
    simp only [List.map_cons, List.nodup_cons] at hnd
    show (applyDeletes (L.set d.1 ((L.getD d.1 []).filter _)) ds).getD lvl [] = _
    by_cases hl : d.1 = lvl
    · have hfor : delsFor (d :: ds) lvl = d.2 := by
        unfold delsFor
        rw [List.find?_cons_of_pos _ (by simp [hl])]
        rfl
      rw [applyDeletes_untouched ds _ lvl (by rw [← hl]; exact hnd.1)]
      subst hl
      by_cases hlen : d.1 < L.length
      · rw [getD_set_self L d.1 _ _ hlen, hfor]
      · rw [List.set_eq_of_length_le (by omega)]
        rw [getD_default_of_le L d.1 [] (by omega)]
        rfl
    · have hfor : delsFor (d :: ds) lvl = delsFor ds lvl := by
        unfold delsFor
        rw [List.find?_cons_of_neg _ (by simp [hl])]
      rw [ih _ hnd.2, getD_set_ne L d.1 lvl _ _ hl, hfor]

theorem applyAdds_getD (adds : List (Nat × List FileMeta))
    (L : List (List FileMeta)) (lvl : Nat)
    (hnd : (adds.map Prod.fst).Nodup)
    (hrange : ∀ a ∈ adds, a.1 < L.length) :
    (applyAdds L adds).getD lvl [] =
      L.getD lvl [] ++ addsFor adds lvl := by
  induction adds generalizing L with
  | nil =>
    show L.getD lvl [] = _
    rw [show addsFor [] lvl = [] from rfl, List.append_nil]
  | cons a as ih =>
    simp only [List.map_cons, List.nodup_cons] at hnd
    have hrange2 : ∀ a2 ∈ as, a2.1 < (L.set a.1 (L.getD a.1 [] ++ a.2)).length := by
      intro a2 ha2
      rw [List.length_set]
      exact hrange a2 (List.mem_cons_of_mem _ ha2)
    show (applyAdds (L.set a.1 (L.getD a.1 [] ++ a.2)) as).getD lvl [] = _
    by_cases hl : a.1 = lvl
    · have hfor : addsFor (a :: as) lvl = a.2 := by
        unfold addsFor
        rw [List.find?_cons_of_pos _ (by simp [hl])]
        rfl
      rw [applyAdds_untouched as _ lvl (by rw [← hl]; exact hnd.1)]
      subst hl
      rw [getD_set_self L a.1 _ _ (hrange a (List.mem_cons_self a as)), hfor]
    · have hfor : addsFor (a :: as) lvl = addsFor as lvl := by
        unfold addsFor
        rw [List.find?_cons_of_neg _ (by simp [hl])]
      rw [ih _ hnd.2 hrange2, getD_set_ne L a.1 lvl _ _ hl, hfor]

theorem applyDeletes_length (dels : List (Nat × List Nat))
    (L : List (List FileMeta)) :
    (applyDeletes L dels).length = L.length := by
  induction dels generalizing L with
  | nil => rfl
  | cons d ds ih =>
    show (applyDeletes (L.set d.1 _) ds).length = _
    rw [ih]
    exact List.length_set L _ _

theorem applyAdds_length (adds : List (Nat × List FileMeta))
    (L : List (List FileMeta)) :
    (applyAdds L adds).length = L.length := by
  induction adds generalizing L with
  | nil => rfl
  | cons a as ih =>
    show (applyAdds (L.set a.1 _) as).length = _
    rw [ih]
    exact List.length_set L _ _

theorem foldl_max_init (L : List Nat) :
    ∀ (a b : Nat), L.foldl max (max a b) = max a (L.foldl max b) := by
  induction L with
  | nil => intro a b; rfl
  | cons f fs ih =>
    intro a b
    show fs.foldl max (max (max a b) f) = max a (fs.foldl max (max b f))
    rw [Nat.max_assoc, ih a (max b f)]

theorem maxAdded_flat (adds : List (Nat × List FileMeta)) :
    ∀ (init : Nat),
    adds.foldl (fun m a => a.2.foldl (fun m2 fm => max m2 fm.fileNo) m) init =
      (flatAdded adds).foldl max init := by
  induction adds with
  | nil => intro init; rfl
  | cons a as ih =>
    intro init
    show as.foldl _ (a.2.foldl (fun m2 fm => max m2 fm.fileNo) init) = _
    rw [ih]
    unfold flatAdded
    rw [List.map_cons, List.flatten_cons, List.foldl_append, List.foldl_map]

theorem claimNext_flat (adds : List (Nat × List FileMeta)) :
    ∀ (init : Nat),
    adds.foldl (fun n a => a.2.foldl (fun n2 fm => max n2 (fm.fileNo + 1)) n) init =
      (flatAdded adds).foldl (fun n f => max n (f + 1)) init := by
  induction adds with
  | nil => intro init; rfl
  | cons a as ih =>
    intro init
    show as.foldl _ (a.2.foldl (fun n2 fm => max n2 (fm.fileNo + 1)) init) = _
    rw [ih]
    unfold flatAdded
    rw [List.map_cons, List.flatten_cons, List.foldl_append, List.foldl_map]

theorem foldl_maxsucc_init (L : List Nat) :
    ∀ (a b : Nat), L.foldl (fun n f => max n (f + 1)) (max a b) =
      max a (L.foldl (fun n f => max n (f + 1)) b) := by
  induction L with
  | nil => intro a b; rfl
  | cons f fs ih =>
    intro a b
    show fs.foldl _ (max (max a b) (f + 1)) = max a (fs.foldl _ (max b (f + 1)))
    rw [Nat.max_assoc, ih a (max b (f + 1))]

theorem foldl_maxsucc_shift (L : List Nat) :
    ∀ (f : Nat), L.foldl (fun n x => max n (x + 1)) (f + 1) =
      (L.foldl max f) + 1 := by
  induction L with
  | nil => intro f; rfl
  | cons x xs ih =>
    intro f
    show xs.foldl _ (max (f + 1) (x + 1)) = (xs.foldl max (max f x)) + 1
    rw [show max (f + 1) (x + 1) = (max f x) + 1 by omega, ih (max f x)]

theorem foldl_maxsucc_nonempty (L : List Nat) (a : Nat) (hL : L ≠ []) :
    L.foldl (fun n f => max n (f + 1)) a = max a ((L.foldl max 0) + 1) := by
  match L with
  | [] => exact absurd rfl hL
  | f :: fs =>
    show fs.foldl _ (max a (f + 1)) = _
    rw [foldl_maxsucc_init fs a (f + 1), foldl_maxsucc_shift fs f]
    rw [show (f :: fs).foldl max 0 = fs.foldl max (max 0 f) from rfl, Nat.zero_max]

/-- Counterexample to C9 as stated: the claim says an edit that adds no
files leaves next_sst_no unchanged (its fold over zero added files keeps
the original value, here 0), but Apply tests maxSSTable >= NextSSTableNumber
with maxSSTable initialised to 0, so when NextSSTableNumber is 0 an empty
edit bumps it to 1. -/
theorem claim_C9_counterexample :
    (manifestApply ⟨0, [[], [], [], []], 0, 0⟩ ⟨[], []⟩).nextSSTableNumber = 1 ∧
    claimNextSST 0 ([] : List (Nat × List FileMeta)) = 0 := by
  exact ⟨rfl, rfl⟩

/-- C9 (amended). Manifest.Apply builds a fresh Version: CurrentWAL and
NextWALNumber are copied unchanged; the number of levels is preserved; per
level, exactly the file numbers the edit deletes for that level are removed
(keeping order) and the metadata the edit adds for that level is appended;
and NextSSTableNumber follows max(next_sst_no, file_no + 1) over the added
files whenever the edit adds at least one file or next_sst_no is positive,
while an edit adding no files to a version whose next_sst_no is 0 sets it
to 1 (because Apply compares a zero-initialised maxSSTable with >=), not 0
as the claim states.  Edit levels are distinct (Go map keys) and added
levels are in range (Go would panic otherwise). -/
theorem claim_C9 (v : Version) (edit : CompactionEdit)
    (hdnd : (edit.deleteSSTables.map Prod.fst).Nodup)
    (hand : (edit.addSSTables.map Prod.fst).Nodup)
    (hrange : ∀ a ∈ edit.addSSTables, a.1 < v.levels.length) :
    (manifestApply v edit).currentWAL = v.currentWAL ∧
    (manifestApply v edit).nextWALNumber = v.nextWALNumber ∧
    (manifestApply v edit).levels.length = v.levels.length ∧
    (∀ lvl, (manifestApply v edit).levels.getD lvl [] =
      ((v.levels.getD lvl []).filter
        (fun fm => decide (fm.fileNo ∉ delsFor edit.deleteSSTables lvl))) ++
        addsFor edit.addSSTables lvl) ∧
    ((flatAdded edit.addSSTables ≠ [] ∨ 0 < v.nextSSTableNumber) →
      (manifestApply v edit).nextSSTableNumber =
        claimNextSST v.nextSSTableNumber edit.addSSTables) ∧
    (flatAdded edit.addSSTables = [] → v.nextSSTableNumber = 0 →
      (manifestApply v edit).nextSSTableNumber = 1) := by
  have hM : maxAddedFileNo edit.addSSTables =
      (flatAdded edit.addSSTables).foldl max 0 := maxAdded_flat _ 0
  have hC : claimNextSST v.nextSSTableNumber edit.addSSTables =
      (flatAdded edit.addSSTables).foldl (fun n f => max n (f + 1))
        v.nextSSTableNumber := claimNext_flat _ _
  refine ⟨rfl, rfl, ?_, ?_, ?_, ?_⟩
  · show (applyAdds (applyDeletes v.levels edit.deleteSSTables)
      edit.addSSTables).length = v.levels.length
    rw [applyAdds_length, applyDeletes_length]
  · intro lvl
    show (applyAdds (applyDeletes v.levels edit.deleteSSTables)
      edit.addSSTables).getD lvl [] = _
    rw [applyAdds_getD _ _ _ hand
      (by rw [applyDeletes_length]; exact hrange)]
    rw [applyDeletes_getD _ _ _ hdnd]
  · intro h
    show (if v.nextSSTableNumber ≤ maxAddedFileNo edit.addSSTables
      then maxAddedFileNo edit.addSSTables + 1
      else v.nextSSTableNumber) = claimNextSST v.nextSSTableNumber edit.addSSTables
    by_cases hF : flatAdded edit.addSSTables = []
    · have hpos : 0 < v.nextSSTableNumber := by
        rcases h with h | h
        · exact absurd hF h
        · exact h
      rw [hC, hF, List.foldl_nil]
      rw [if_neg (by rw [hM, hF]; simp only [List.foldl_nil]; omega)]
    · rw [hC, foldl_maxsucc_nonempty _ _ hF, ← hM]
      rcases Nat.le_total v.nextSSTableNumber (maxAddedFileNo edit.addSSTables)
        with hle | hle
      · rw [if_pos hle]
        omega
      · by_cases heq : v.nextSSTableNumber ≤ maxAddedFileNo edit.addSSTables
        · rw [if_pos heq]
          omega
        · rw [if_neg heq]
          omega
  · intro hF h0
    show (if v.nextSSTableNumber ≤ maxAddedFileNo edit.addSSTables
      then maxAddedFileNo edit.addSSTables + 1
      else v.nextSSTableNumber) = 1
    have hM0 : maxAddedFileNo edit.addSSTables = 0 := by
      rw [hM, hF]
      rfl
    rw [hM0, h0]
    decide

/-- Witness for C9 at a concrete version and edit: deleting file 0 from
level 0 and adding file 9 yields level 0 equal to the filtered original
followed by the addition, and NextSSTableNumber 10 = max(3, 9 + 1). -/
theorem claim_C9_witness :
    ((manifestApply c9v c9e).levels.getD 0 [] =
      ((c9v.levels.getD 0 []).filter
        (fun fm => decide (fm.fileNo ∉ delsFor c9e.deleteSSTables 0))) ++
        addsFor c9e.addSSTables 0) ∧
    (manifestApply c9v c9e).nextSSTableNumber =
      claimNextSST c9v.nextSSTableNumber c9e.addSSTables := by
  have h := claim_C9 c9v c9e (by decide) (by decide) (by decide)
  exact ⟨h.2.2.2.1 0, h.2.2.2.2.1 (Or.inl (by decide))⟩

end Amethyst

